import Mathlib

/-!
Verification development for the zeroshot multi-agent coordination engine.

Shallow embedding of the JavaScript sources:
* schema-utils (normalizeEnumValues)            — enum normalization of LLM output
* lib/settings.js                               — model ceiling/floor validation, settings load
* agent-config (validateAgentConfig)            — config-time model rule enforcement
* claude-task-runner (ClaudeTaskRunner.run)     — schema-vs-streaming output format policy
* task store (loadTasks / loadSchedules, locks) — corrupt-store errors, stale lock handling
* AgentWrapper model selection                  — modelled from the spec (source not in tree)

JavaScript strings are modelled as Lean `String`, with the relevant primitives
(trim / toUpperCase / split / slice) re-implemented structurally over `String.data`
so that concrete evaluation reduces in the kernel.  The ASCII fragment of
toUpperCase is modelled (all enum data in the repository is ASCII), and the
common whitespace set of trim.
-/

namespace Zeroshot

/-! ## JavaScript string primitives -/

/-- Whitespace test used by the model of String.prototype.trim (common subset). -/
def isWsChar (c : Char) : Bool :=
  c == ' ' || c == '\t' || c == '\n' || c == '\r'

/-- Lowercase/uppercase ASCII letter pairs (the alphabet case table). -/
def letterPairs : List (Char × Char) :=
  [('a', 'A'), ('b', 'B'), ('c', 'C'), ('d', 'D'), ('e', 'E'), ('f', 'F'),
   ('g', 'G'), ('h', 'H'), ('i', 'I'), ('j', 'J'), ('k', 'K'), ('l', 'L'),
   ('m', 'M'), ('n', 'N'), ('o', 'O'), ('p', 'P'), ('q', 'Q'), ('r', 'R'),
   ('s', 'S'), ('t', 'T'), ('u', 'U'), ('v', 'V'), ('w', 'W'), ('x', 'X'),
   ('y', 'Y'), ('z', 'Z')]

/-- ASCII fragment of String.prototype.toUpperCase, one character. -/
def upperChar (c : Char) : Char := (letterPairs.lookup c).getD c

/-- Model of s.toUpperCase() on the character list. -/
def jsUpperL (l : List Char) : List Char := l.map upperChar

/-- Model of s.toUpperCase(). -/
def jsUpper (s : String) : String := String.mk (jsUpperL s.data)

/-- Model of s.trim() on the character list: drop whitespace at both ends. -/
def jsTrimL (l : List Char) : List Char :=
  List.rdropWhile isWsChar (List.dropWhile isWsChar l)

/-- Model of s.trim(). -/
def jsTrim (s : String) : String := String.mk (jsTrimL s.data)

/-- Model of s.split(&#39;|&#39;) on the character list. -/
def splitPipeL : List Char → List (List Char)
  | [] => [[]]
  | c :: rest =>
    let r := splitPipeL rest
    if c = '|' then [] :: r
    else
      match r with
      | [] => [[c]]
      | h :: t => (c :: h) :: t

/-- Model of s.split(&#39;|&#39;). -/
def splitPipe (s : String) : List String := (splitPipeL s.data).map String.mk

/-- Model of s.includes(&#39;|&#39;). -/
def hasPipe (s : String) : Bool := s.data.contains '|'

/-- Model of s.slice(0, n). -/
def jsTake (n : Nat) (s : String) : String := String.mk (s.data.take n)

/-! ## Data model: parsed JSON values and JSON schemas

`Json.obj` models a JavaScript object as a key/value list (keys unique in any
object produced by JSON.parse); `Schema` keeps the fields read by
normalizeEnumValues: enum, type, properties, items.  An absent `properties`
or `enum` is modelled by the empty list (extensionally equal to the source,
which treats an empty object or empty array the same as an absent one on
every path of normalizeEnumValues). -/

inductive Json where
  | str (s : String)
  | num (n : Int)
  | bool (b : Bool)
  | null
  | arr (elems : List Json)
  | obj (fields : List (String × Json))

inductive Schema where
  | mk (enum : List String) (ty : Option String)
       (properties : List (String × Schema)) (items : Option Schema)

/-- Projection onto the enum field. -/
def Schema.enum : Schema → List String
  | .mk e _ _ _ => e

/-- Projection onto the type field. -/
def Schema.ty : Schema → Option String
  | .mk _ t _ _ => t

/-- Projection onto the properties field. -/
def Schema.properties : Schema → List (String × Schema)
  | .mk _ _ p _ => p

/-- Projection onto the items field. -/
def Schema.items : Schema → Option Schema
  | .mk _ _ _ i => i

/-! ## normalizeEnumValues (schema-utils) -/

/-- Common-variations table from normalizeEnumValues (schema-utils source). -/
def commonVariations : List (String × String) :=
  [("BUG", "DEBUG"), ("FIX", "DEBUG"), ("BUGFIX", "DEBUG"), ("BUG_FIX", "DEBUG"),
   ("INVESTIGATE", "DEBUG"), ("TROUBLESHOOT", "DEBUG"),
   ("IMPLEMENT", "TASK"), ("BUILD", "TASK"), ("CREATE", "TASK"), ("ADD", "TASK"),
   ("FEATURE", "TASK"),
   ("QUESTION", "INQUIRY"), ("ASK", "INQUIRY"), ("EXPLORE", "INQUIRY"),
   ("RESEARCH", "INQUIRY"), ("UNDERSTAND", "INQUIRY"),
   ("EASY", "TRIVIAL"), ("BASIC", "SIMPLE"), ("MINOR", "SIMPLE"),
   ("MODERATE", "STANDARD"), ("MEDIUM", "STANDARD"), ("NORMAL", "STANDARD"),
   ("HARD", "STANDARD"),
   ("COMPLEX", "CRITICAL"), ("RISKY", "CRITICAL"), ("HIGH_RISK", "CRITICAL"),
   ("DANGEROUS", "CRITICAL")]

/-- Pipe-joined enum list detection of normalizeEnumValues: when at least two
pipe-separated parts are valid enum options the value collapses to the first
valid (non-empty) option. -/
def collapsePipes (es : List String) (v : String) : String :=
  if 2 ≤ (((splitPipe v).map jsTrim).filter (fun p => es.contains p)).length then
    match ((splitPipe v).map jsTrim).find? (fun p => es.contains p) with
    | some fv => if fv = "" then v else fv
    | none => v
  else v

/-- Normalized comparison value of normalizeEnumValues: the raw string value
trimmed and uppercased, with a copied pipe-joined enum list collapsed. -/
def enumValueOf (es : List String) (s : String) : String :=
  if hasPipe (jsUpper (jsTrim s)) then collapsePipes es (jsUpper (jsTrim s))
  else jsUpper (jsTrim s)

/-- String-value branch of normalizeEnumValues for one property with enum
list es: trim + uppercase, collapse a copied pipe-joined enum list, then
case-insensitive exact match, then the common-variations fallback; on no
match the original string is kept. -/
def normalizeString (es : List String) (s : String) : String :=
  match es.find? (fun e => jsUpper e == enumValueOf es s) with
  | some m => m
  | none =>
    match commonVariations.lookup (enumValueOf es s) with
    | some rep => if es.contains rep then rep else s
    | none => s

/-- Association-list lookup of a property schema by key (JavaScript object
property access; keys are unique in an object literal). -/
def lookupProp (k : String) : List (String × Schema) → Option Schema
  | [] => none
  | p :: rest => if p.1 = k then some p.2 else lookupProp k rest

/-- Enum/string branch of normalizeEnumValues for one property: a string
value with an enum present is normalized; everything else is untouched. -/
def stringBranch (ps : Schema) (v : Json) : Json :=
  match v with
  | .str s0 => if ps.enum.isEmpty then .str s0 else .str (normalizeString ps.enum s0)
  | other => other

mutual

/-- Per-object pass of normalizeEnumValues: each field whose key has a
property schema is rewritten by applyProp; other fields are untouched
(the source iterates schema properties and mutates result[key]). -/
def normFields (fields : List (String × Json)) (props : List (String × Schema)) :
    List (String × Json) :=
  match fields with
  | [] => []
  | (k, v) :: rest =>
    (k,
      match h : lookupProp k props with
      | some ps => applyProp ps v
      | none => v) :: normFields rest props
termination_by (sizeOf props, sizeOf fields)
decreasing_by
  all_goals simp_wf
  · have key : ∀ (props2 : List (String × Schema)) (ps2 : Schema),
        lookupProp k props2 = some ps2 → sizeOf ps2 < sizeOf props2 := by
      intro props2
      induction props2 with
      | nil => intro ps2 h2; simp [lookupProp] at h2
      | cons p prest ih =>
        intro ps2 h2
        rw [lookupProp] at h2
        split at h2
        · cases h2; cases p; simp; omega
        · have := ih _ h2; cases p; simp; omega
    exact Prod.Lex.left _ _ (key _ _ h)
  · exact Prod.Lex.right _ (by omega)

/-- Nested-object branch of normalizeEnumValues for one property: recursion
into an object value when the property schema is an object with properties. -/
def objBranch (ps : Schema) (v : Json) : Json :=
  if ps.ty == some "object" && !ps.properties.isEmpty then
    match v with
    | .obj fs => .obj (normFields fs ps.properties)
    | other => other
  else v
termination_by (sizeOf ps, 1)
decreasing_by
  all_goals simp_wf
  have hp : sizeOf ps.properties < sizeOf ps := by
    cases ps with
    | mk e t p i => simp [Schema.properties]; omega
  exact Prod.Lex.left _ _ hp

/-- Array-of-objects branch of normalizeEnumValues for one property: each
element of an array value is normalized against the items schema. -/
def itemsBranch (ps : Schema) (v : Json) : Json :=
  match hi : ps.items with
  | some it =>
    if ps.ty == some "array" && !it.properties.isEmpty then
      match v with
      | .arr xs => .arr (normItems xs it)
      | other => other
    else v
  | none => v
termination_by (sizeOf ps, 1)
decreasing_by
  all_goals simp_wf
  have hp : sizeOf it < sizeOf ps := by
    cases ps with
    | mk e t p i => simp [Schema.items] at hi; subst hi; simp; omega
  exact Prod.Lex.left _ _ hp

/-- Per-property logic of normalizeEnumValues: the enum/string branch, then
the nested-object branch, then the array-of-objects branch, in source order. -/
def applyProp (ps : Schema) (v : Json) : Json :=
  itemsBranch ps (objBranch ps (stringBranch ps v))
termination_by (sizeOf ps, 2)
decreasing_by
  all_goals simp_wf
  all_goals exact Prod.Lex.right _ (by omega)

/-- Element loop of the array-of-objects branch. -/
def normItems (xs : List Json) (it : Schema) : List Json :=
  match xs with
  | [] => []
  | x :: rest =>
    (match x with
      | .obj fs => Json.obj (normFields fs it.properties)
      | other => other) :: normItems rest it
termination_by (sizeOf it, sizeOf xs)
decreasing_by
  all_goals simp_wf
  · have hp : sizeOf it.properties < sizeOf it := by
      cases it with
      | mk e t p i => simp [Schema.properties]; omega
    exact Prod.Lex.left _ _ hp
  · exact Prod.Lex.right _ (by omega)

end

/-- Model of normalizeEnumValues(result, schema): a no-op unless the result is
an object and the schema has properties. -/
def normalizeEnumValues (v : Json) (s : Schema) : Json :=
  match v with
  | .obj fields => .obj (normFields fields s.properties)
  | other => other

/-- Case-uniqueness of an enum list: no two options share an uppercase form.
The counterexample to unconditional idempotence of normalizeEnumValues needs
two options differing only in case, so idempotence is proved under this. -/
def enumCaseUniqueB (es : List String) : Bool :=
  es.all (fun e1 => es.all (fun e2 => !(jsUpper e1 == jsUpper e2) || e1 == e2))

mutual

/-- Well-formedness of a schema for idempotence: every enum list reachable
from it (own properties, nested objects, array items) is case-unique. -/
def schemaOkB (ps : Schema) : Bool :=
  enumCaseUniqueB ps.enum && propsOkB ps.properties &&
    (match hi : ps.items with
     | some it => schemaOkB it
     | none => true)
termination_by sizeOf ps
decreasing_by
  all_goals simp_wf
  · cases ps with
    | mk e t p i => simp [Schema.properties]; omega
  · cases ps with
    | mk e t p i => simp [Schema.items] at hi; subst hi; simp; omega

/-- Well-formedness of a property-schema list (see schemaOkB). -/
def propsOkB (props : List (String × Schema)) : Bool :=
  match props with
  | [] => true
  | p :: rest => schemaOkB p.2 && propsOkB rest
termination_by sizeOf props
decreasing_by
  all_goals simp_wf
  all_goals try (cases p)
  all_goals simp
  all_goals omega

end

/-- ASCII fragment of String.prototype.toLowerCase, one character. -/
def lowerChar (c : Char) : Char :=
  ((letterPairs.map (fun p => (p.2, p.1))).lookup c).getD c

/-- Model of s.toLowerCase(). -/
def jsLower (s : String) : String := String.mk (s.data.map lowerChar)

/-! ## Provider names (lib/provider-names.js) -/

/-- PROVIDER_ALIASES table from lib/provider-names.js. -/
def PROVIDER_ALIASES : List (String × String) :=
  [("anthropic", "claude"), ("openai", "codex"), ("google", "gemini"),
   ("claude", "claude"), ("codex", "codex"), ("gemini", "gemini")]

/-- VALID_PROVIDERS from lib/provider-names.js. -/
def VALID_PROVIDERS : List String := ["claude", "codex", "gemini"]

/-- Model of normalizeProviderName: alias lookup on the lowercased name,
falling back to the input. -/
def normalizeProviderName (name : String) : String :=
  if name = "" then name
  else
    match PROVIDER_ALIASES.lookup (jsLower name) with
    | some c => c
    | none => name

/-! ## Settings (lib/settings.js) -/

/-- Per-provider level settings (providerSettings entries). -/
structure ProviderLevels where
  maxLevel : String
  minLevel : String
  defaultLevel : String
  levelOverrides : List (String × String)
deriving DecidableEq

/-- Partial per-provider settings as read from the settings file. -/
structure PartialProviderLevels where
  maxLevel : Option String
  minLevel : Option String
  defaultLevel : Option String
  levelOverrides : Option (List (String × String))
deriving DecidableEq

/-- Full provider settings map over the three canonical providers. -/
structure ProviderSettingsMap where
  claude : ProviderLevels
  codex : ProviderLevels
  gemini : ProviderLevels
deriving DecidableEq

/-- Partial provider settings keyed by canonical names and aliases as read
from the settings file. -/
structure PartialProviderSettingsMap where
  anthropic : Option PartialProviderLevels
  openai : Option PartialProviderLevels
  google : Option PartialProviderLevels
  claude : Option PartialProviderLevels
  codex : Option PartialProviderLevels
  gemini : Option PartialProviderLevels
deriving DecidableEq

/-- JavaScript object spread of two partial level records (fields of the
second override fields of the first). -/
def mergePartialLevels (a b : PartialProviderLevels) : PartialProviderLevels :=
  { maxLevel := match b.maxLevel with | some x => some x | none => a.maxLevel
    minLevel := match b.minLevel with | some x => some x | none => a.minLevel
    defaultLevel := match b.defaultLevel with | some x => some x | none => a.defaultLevel
    levelOverrides := match b.levelOverrides with | some x => some x | none => a.levelOverrides }

/-- Combination step of normalizeProviderSettings for one canonical provider:
alias entry first, canonical entry second (canonical fields win). -/
def combineAlias (al canonical : Option PartialProviderLevels) :
    Option PartialProviderLevels :=
  match al, canonical with
  | none, none => none
  | some a, none => some a
  | none, some c => some c
  | some a, some c => some (mergePartialLevels a c)

/-- Model of normalizeProviderSettings: merge alias keys into canonical keys,
canonical values taking precedence. -/
def normalizeProviderSettings (p : PartialProviderSettingsMap) :
    PartialProviderSettingsMap :=
  { anthropic := none, openai := none, google := none
    claude := combineAlias p.anthropic p.claude
    codex := combineAlias p.openai p.codex
    gemini := combineAlias p.google p.gemini }

/-- Application of a partial provider entry over current values
(mergeProviderSettings per-provider spread). -/
def applyPartialLevels (cur : ProviderLevels) (o : Option PartialProviderLevels) :
    ProviderLevels :=
  match o with
  | none => cur
  | some po =>
    { maxLevel := po.maxLevel.getD cur.maxLevel
      minLevel := po.minLevel.getD cur.minLevel
      defaultLevel := po.defaultLevel.getD cur.defaultLevel
      levelOverrides := po.levelOverrides.getD cur.levelOverrides }

/-- Model of mergeProviderSettings over the three canonical providers. -/
def mergeProviderSettings (current : ProviderSettingsMap)
    (overrides : Option PartialProviderSettingsMap) : ProviderSettingsMap :=
  match overrides with
  | none => current
  | some o =>
    { claude := applyPartialLevels current.claude o.claude
      codex := applyPartialLevels current.codex o.codex
      gemini := applyPartialLevels current.gemini o.gemini }

/-- Settings record with the keys of DEFAULT_SETTINGS (lib/settings.js). -/
structure Settings where
  maxModel : String
  minModel : Option String
  defaultProvider : String
  providerSettings : ProviderSettingsMap
  defaultConfig : String
  defaultDocker : Bool
  strictSchema : Bool
  logLevel : String
  autoCheckUpdates : Bool
  lastUpdateCheckAt : Option Int
  lastSeenVersion : Option String
  claudeCommand : String
  dockerMounts : List String
  dockerEnvPassthrough : List String
  dockerContainerHome : String
deriving DecidableEq

/-- DEFAULT_SETTINGS from lib/settings.js. -/
def DEFAULT_SETTINGS : Settings :=
  { maxModel := "opus"
    minModel := none
    defaultProvider := "claude"
    providerSettings :=
      { claude := { maxLevel := "level3", minLevel := "level1",
                    defaultLevel := "level2", levelOverrides := [] }
        codex := { maxLevel := "level3", minLevel := "level1",
                   defaultLevel := "level2", levelOverrides := [] }
        gemini := { maxLevel := "level3", minLevel := "level1",
                    defaultLevel := "level2", levelOverrides := [] } }
    defaultConfig := "conductor-bootstrap"
    defaultDocker := false
    strictSchema := true
    logLevel := "normal"
    autoCheckUpdates := true
    lastUpdateCheckAt := none
    lastSeenVersion := none
    claudeCommand := "claude"
    dockerMounts := ["gh", "git", "ssh"]
    dockerEnvPassthrough := []
    dockerContainerHome := "/home/node" }

/-- Partial settings as produced by JSON.parse of the settings file: a key is
present (some) or absent (none); nullable keys carry a nested Option. -/
structure PartialSettings where
  maxModel : Option String
  minModel : Option (Option String)
  defaultProvider : Option String
  providerSettings : Option PartialProviderSettingsMap
  defaultConfig : Option String
  defaultDocker : Option Bool
  strictSchema : Option Bool
  logLevel : Option String
  autoCheckUpdates : Option Bool
  lastUpdateCheckAt : Option (Option Int)
  lastSeenVersion : Option (Option String)
  claudeCommand : Option String
  dockerMounts : Option (List String)
  dockerEnvPassthrough : Option (List String)
  dockerContainerHome : Option String
deriving DecidableEq

/-- LEVEL_RANKS from lib/settings.js. -/
def LEVEL_RANKS : List (String × Nat) :=
  [("level1", 1), ("level2", 2), ("level3", 3)]

/-- Model of mapLegacyModelToLevel. -/
def mapLegacyModelToLevel (model : String) : Option String :=
  if model = "haiku" then some "level1"
  else if model = "sonnet" then some "level2"
  else if model = "opus" then some "level3"
  else none

/-- Model of applyLegacyModelBounds: map legacy maxModel/minModel onto the
claude provider bounds, then repair inconsistent bounds and clamp the
default level. -/
def applyLegacyModelBounds (s : Settings) : Settings :=
  let claude0 := s.providerSettings.claude
  let legacyMax := mapLegacyModelToLevel s.maxModel
  let legacyMin :=
    match s.minModel with
    | some m => mapLegacyModelToLevel m
    | none => none
  let claude1 := { claude0 with maxLevel := legacyMax.getD claude0.maxLevel }
  let claude2 := { claude1 with minLevel := legacyMin.getD claude1.minLevel }
  let minRank := (LEVEL_RANKS.lookup claude2.minLevel).getD 1
  let maxRank := (LEVEL_RANKS.lookup claude2.maxLevel).getD 3
  let defaultRank := (LEVEL_RANKS.lookup claude2.defaultLevel).getD 2
  let claude3 :=
    if maxRank < minRank then
      { claude2 with minLevel := "level1", maxLevel := "level3" }
    else if defaultRank < minRank then
      { claude2 with defaultLevel := claude2.minLevel }
    else if maxRank < defaultRank then
      { claude2 with defaultLevel := claude2.maxLevel }
    else claude2
  { s with providerSettings := { s.providerSettings with claude := claude3 } }

/-- Model of normalizeLoadedSettings. -/
def normalizeLoadedSettings (p : PartialSettings) : PartialSettings :=
  { p with
    defaultProvider := p.defaultProvider.map normalizeProviderName
    providerSettings := p.providerSettings.map normalizeProviderSettings }

/-- Observable state of the settings file when loadSettings runs: the file is
absent, reading or parsing it throws, or it parses to a partial record. -/
inductive SettingsFileState where
  | absent
  | unreadable
  | parsed (p : PartialSettings)

/-- Model of loadSettings: defaults when the file is absent or unreadable,
otherwise parsed values merged over the defaults, the provider name
normalized with fallback, provider settings merged, then legacy bounds. -/
def loadSettings : SettingsFileState → Settings
  | .absent => DEFAULT_SETTINGS
  | .unreadable => DEFAULT_SETTINGS
  | .parsed p0 =>
    let p := normalizeLoadedSettings p0
    let dp1 := p.defaultProvider.getD DEFAULT_SETTINGS.defaultProvider
    let n := normalizeProviderName dp1
    let merged : Settings :=
      { maxModel := p.maxModel.getD DEFAULT_SETTINGS.maxModel
        minModel := p.minModel.getD DEFAULT_SETTINGS.minModel
        defaultProvider := if n = "" then DEFAULT_SETTINGS.defaultProvider else n
        providerSettings :=
          mergeProviderSettings DEFAULT_SETTINGS.providerSettings p.providerSettings
        defaultConfig := p.defaultConfig.getD DEFAULT_SETTINGS.defaultConfig
        defaultDocker := p.defaultDocker.getD DEFAULT_SETTINGS.defaultDocker
        strictSchema := p.strictSchema.getD DEFAULT_SETTINGS.strictSchema
        logLevel := p.logLevel.getD DEFAULT_SETTINGS.logLevel
        autoCheckUpdates := p.autoCheckUpdates.getD DEFAULT_SETTINGS.autoCheckUpdates
        lastUpdateCheckAt := p.lastUpdateCheckAt.getD DEFAULT_SETTINGS.lastUpdateCheckAt
        lastSeenVersion := p.lastSeenVersion.getD DEFAULT_SETTINGS.lastSeenVersion
        claudeCommand := p.claudeCommand.getD DEFAULT_SETTINGS.claudeCommand
        dockerMounts := p.dockerMounts.getD DEFAULT_SETTINGS.dockerMounts
        dockerEnvPassthrough :=
          p.dockerEnvPassthrough.getD DEFAULT_SETTINGS.dockerEnvPassthrough
        dockerContainerHome :=
          p.dockerContainerHome.getD DEFAULT_SETTINGS.dockerContainerHome }
    applyLegacyModelBounds merged

/-! ## Model ceiling/floor validation (lib/settings.js) -/

/-- MODEL_HIERARCHY from lib/settings.js. -/
def MODEL_HIERARCHY : List (String × Nat) :=
  [("opus", 3), ("sonnet", 2), ("haiku", 1)]

/-- VALID_MODELS from lib/settings.js (keys of MODEL_HIERARCHY). -/
def VALID_MODELS : List String := ["opus", "sonnet", "haiku"]

/-- Rank of a model name in the hierarchy (0 for unknown names; the source
only compares ranks of names already validated). -/
def modelRank (m : String) : Nat := (MODEL_HIERARCHY.lookup m).getD 0

/-- Error cases thrown by validateModelAgainstMax, in source order. -/
inductive ModelError where
  | invalidModel (m : String)
  | invalidMaxModel (m : String)
  | exceedsCeiling (requested maxModel : String)
  | invalidMinModel (m : String)
  | minAboveMax (minModel maxModel : String)
  | belowFloor (requested minModel : String)
deriving DecidableEq

/-- Model of validateModelAgainstMax: a falsy requested model defaults to the
ceiling; otherwise names are validated and the requested model is checked
against the ceiling and the (optional) floor. -/
def validateModelAgainstMax (requestedModel : Option String) (maxModel : String)
    (minModel : Option String) : Except ModelError String :=
  match requestedModel with
  | none => .ok maxModel
  | some r =>
    if r = "" then .ok maxModel
    else if !VALID_MODELS.contains r then .error (.invalidModel r)
    else if !VALID_MODELS.contains maxModel then .error (.invalidMaxModel maxModel)
    else if modelRank maxModel < modelRank r then .error (.exceedsCeiling r maxModel)
    else
      match minModel with
      | none => .ok r
      | some mn =>
        if mn = "" then .ok r
        else if !VALID_MODELS.contains mn then .error (.invalidMinModel mn)
        else if modelRank maxModel < modelRank mn then .error (.minAboveMax mn maxModel)
        else if modelRank r < modelRank mn then .error (.belowFloor r mn)
        else .ok r

/-! ## Agent configuration (validateAgentConfig, model enforcement slice) -/

/-- One modelRules entry of an agent definition. -/
structure ModelRule where
  iterations : String
  model : Option String
  modelLevel : Option String
deriving DecidableEq

/-- Model configuration derived by validateAgentConfig: static model or
dynamic rules. -/
inductive ModelConfig where
  | static (model : Option String) (modelLevel : Option String)
  | rules (rules : List ModelRule)

/-- VALID_LEVELS from the agent-config source. -/
def VALID_LEVELS : List String := ["level1", "level2", "level3"]

/-- Errors thrown by the model-enforcement part of validateAgentConfig. -/
inductive ConfigError where
  | staticModelViolation (agentId : String) (err : ModelError)
  | invalidModelLevel (agentId : String) (level : String)
  | ruleModelViolation (agentId : String) (iterations : String) (model : String)
      (maxModel : String) (minModel : Option String)
  | ruleInvalidModelLevel (agentId : String) (iterations : String) (level : String)
deriving DecidableEq

/-- Per-rule validation loop of validateAgentConfig for dynamic rules: every
rule with a known legacy model name is validated against the ceiling/floor,
and rule model levels are checked. -/
def validateRuleModels (agentId : String) (maxModel : String)
    (minModel : Option String) : List ModelRule → Except ConfigError Unit
  | [] => .ok ()
  | rule :: rest => do
    (match rule.model with
     | some m =>
       if VALID_MODELS.contains m then
         match validateModelAgainstMax (some m) maxModel minModel with
         | .error _ =>
           throw (.ruleModelViolation agentId rule.iterations m maxModel minModel)
         | .ok _ => pure ()
       else pure ()
     | none => pure ())
    (match rule.modelLevel with
     | some lv =>
       if lv != "" && !VALID_LEVELS.contains lv then
         throw (.ruleInvalidModelLevel agentId rule.iterations lv)
       else pure ()
     | none => pure ())
    validateRuleModels agentId maxModel minModel rest

/-- Model-enforcement slice of validateAgentConfig: validate the static model
(or every rule) against maxModel/minModel at configuration time. -/
def validateConfigModels (agentId : String) (mc : ModelConfig) (maxModel : String)
    (minModel : Option String) : Except ConfigError Unit :=
  match mc with
  | .static model modelLevel => do
    (match model with
     | some m =>
       if VALID_MODELS.contains m then
         match validateModelAgainstMax (some m) maxModel minModel with
         | .error e => throw (.staticModelViolation agentId e)
         | .ok _ => pure ()
       else pure ()
     | none => pure ())
    (match modelLevel with
     | some lv =>
       if lv != "" && !VALID_LEVELS.contains lv then
         throw (.invalidModelLevel agentId lv)
       else pure ()
     | none => pure ())
  | .rules rs => validateRuleModels agentId maxModel minModel rs

/-! ## Task runner output-format policy (ClaudeTaskRunner.run) -/

/-- Output format the runner actually requests from the CLI: stream-json when
a schema is configured, json output is desired and strictSchema is off;
otherwise the desired format. -/
def runOutputFormat (jsonSchema : Option Json) (outputFormat : String)
    (strictSchema : Bool) : String :=
  if jsonSchema.isSome && outputFormat == "json" && !strictSchema then "stream-json"
  else outputFormat

/-- Whether the runner passes the schema as the --json-schema CLI argument:
only when a schema is configured and the requested output format is json. -/
def passesSchemaArg (jsonSchema : Option Json) (runFmt : String) : Bool :=
  jsonSchema.isSome && runFmt == "json"

/-! ## Model selection (AgentWrapper, modelled from the spec) -/

/-- Modelled from the spec: the four iteration pattern forms of modelRules
(the AgentWrapper source is not in the tree; only its tests are). -/
inductive IterPattern where
  | exact (n : Nat)
  | range (lo hi : Nat)
  | atLeast (n : Nat)
  | always
deriving DecidableEq

/-- Digit value of a character, if any. -/
def digitVal? (c : Char) : Option Nat :=
  if '0' ≤ c ∧ c ≤ '9' then some (c.toNat - 48) else none

/-- Accumulating decimal parser over characters. -/
def digitsToNatAux (acc : Nat) : List Char → Option Nat
  | [] => some acc
  | c :: rest =>
    match digitVal? c with
    | some d => digitsToNatAux (10 * acc + d) rest
    | none => none

/-- Decimal parser: all-digit non-empty character list to a Nat. -/
def digitsToNat? (l : List Char) : Option Nat :=
  match l with
  | [] => none
  | _ => digitsToNatAux 0 l

/-- Splitting at the first dash, for range patterns. -/
def breakAtDash : List Char → Option (List Char × List Char)
  | [] => none
  | c :: rest =>
    if c = '-' then some ([], rest)
    else
      match breakAtDash rest with
      | some (a, b) => some (c :: a, b)
      | none => none

/-- Modelled from the spec: parsing of an iterations pattern, one of
a number N, a range N-M, an open-ended N+, or the catch-all string. -/
def parseIterationPattern (p : String) : Option IterPattern :=
  if p = "all" then some .always
  else
    let cs := p.data
    match cs.getLast? with
    | some '+' => (digitsToNat? cs.dropLast).map .atLeast
    | _ =>
      if cs.contains '-' then
        match breakAtDash cs with
        | some (a, b) =>
          match digitsToNat? a, digitsToNat? b with
          | some lo, some hi => some (.range lo hi)
          | _, _ => none
        | none => none
      else (digitsToNat? cs).map .exact

/-- Modelled from the spec: semantics of the four pattern forms. -/
def iterPatternMatches : IterPattern → Nat → Bool
  | .exact n, i => i == n
  | .range lo hi, i => decide (lo ≤ i) && decide (i ≤ hi)
  | .atLeast n, i => decide (n ≤ i)
  | .always, _ => true

/-- Modelled from the spec: failure cases of model selection — an invalid
iterations pattern and no rule matching the current iteration. -/
inductive SelectionError where
  | invalidPattern (pattern : String)
  | noModelRule (iteration : Nat)
deriving DecidableEq

/-- Modelled from the spec: whether a pattern string matches an iteration,
failing on unparseable patterns. -/
def matchesIteration (p : String) (i : Nat) : Except SelectionError Bool :=
  match parseIterationPattern p with
  | some pat => .ok (iterPatternMatches pat i)
  | none => .error (.invalidPattern p)

/-- Modelled from the spec: AgentWrapper model selection over modelRules —
first declared rule whose pattern matches the current iteration wins; no
match fails with a NO_MODEL_RULE error naming the iteration. -/
def selectModelFromRules (iteration : Nat) : List ModelRule → Except SelectionError (Option String)
  | [] => .error (.noModelRule iteration)
  | rule :: rest => do
    let b ← matchesIteration rule.iterations iteration
    if b then pure rule.model else selectModelFromRules iteration rest

/-! ## Task store locking and loading (task-lib storage) -/

/-- LOCK_STALE_MS constant of the task store. -/
def LOCK_STALE_MS : Nat := 5000

/-- Shape of the retry configuration handed to the lock library. -/
structure RetrySpec where
  retries : Nat
  minTimeout : Nat
  maxTimeout : Nat
  randomize : Bool
deriving DecidableEq

/-- LOCK_OPTIONS of the task store: stale threshold plus retry policy. -/
def LOCK_OPTIONS : RetrySpec :=
  { retries := 20, minTimeout := 100, maxTimeout := 200, randomize := true }

/-- Observable state of a lock file: whether it exists and its mtime. -/
structure LockState where
  present : Bool
  mtimeMs : Int
deriving DecidableEq

/-- Model of cleanStaleLock at wall-clock time now: unlink the lock file
exactly when it exists and its age strictly exceeds LOCK_STALE_MS. -/
def cleanStaleLock (now : Int) (st : LockState) : LockState :=
  if st.present && decide ((LOCK_STALE_MS : Int) < now - st.mtimeMs) then
    { present := false, mtimeMs := st.mtimeMs }
  else st

/-- Diagnostic message for a corrupt store file, carrying the parse error
and the first 200 characters of the offending content. -/
def corruptStoreMessage (storeName : String) (errMsg : String) (content : String) :
    String :=
  "CRITICAL: " ++ storeName ++ " is corrupted and cannot be parsed. Error: " ++
    errMsg ++ ". Content: " ++ jsTake 200 content ++ "..."

/-- Shared shape of loadTasks/loadSchedules: absent file yields the empty
object; content that fails to parse (parse is the external JSON.parse,
returning its error message) throws the corrupt-store diagnostic. -/
def loadStore (storeName : String) (parse : String → Except String Json)
    (file : Option String) : Except String Json :=
  match file with
  | none => .ok (.obj [])
  | some content =>
    match parse content with
    | .ok v => .ok v
    | .error e => .error (corruptStoreMessage storeName e content)

/-- Model of loadTasks. -/
def loadTasks (parse : String → Except String Json) (file : Option String) :
    Except String Json :=
  loadStore "tasks.json" parse file

/-- Model of loadSchedules. -/
def loadSchedules (parse : String → Except String Json) (file : Option String) :
    Except String Json :=
  loadStore "schedules.json" parse file

/-- Error test on an Except value (a thrown JavaScript exception). -/
def isErr {ε α : Type} : Except ε α → Bool
  | .error _ => true
  | .ok _ => false

deriving instance DecidableEq for Except

/-! ## Helper lemmas: character case table -/

theorem upperChar_eq_or_mem (c : Char) :
    upperChar c = c ∨ (c, upperChar c) ∈ letterPairs := by
  unfold upperChar
  cases hl : letterPairs.lookup c with
  | none => left; rfl
  | some u =>
    right
    rcases List.lookup_eq_some_iff.mp hl with ⟨l1, l2, heq, hne⟩
    rw [heq]
    simp

theorem upperChar_of_mem_value {p : Char × Char} (hp : p ∈ letterPairs) :
    upperChar p.2 = p.2 := by
  fin_cases hp <;> decide

theorem upperChar_idemChar (c : Char) : upperChar (upperChar c) = upperChar c := by
  rcases upperChar_eq_or_mem c with h | hmem
  · rw [h]
    exact h
  · exact upperChar_of_mem_value hmem

theorem isWsChar_upperChar (c : Char) : isWsChar (upperChar c) = isWsChar c := by
  rcases upperChar_eq_or_mem c with h | hmem
  · rw [h]
  · have : ∀ p ∈ letterPairs, isWsChar p.2 = isWsChar p.1 := by decide
    exact this (c, upperChar c) hmem

/-! ## Helper lemmas: trim, uppercase and split on character lists -/

theorem jsUpperL_idem (l : List Char) : jsUpperL (jsUpperL l) = jsUpperL l := by
  simp only [jsUpperL, List.map_map]
  exact List.map_congr_left (fun c _ => upperChar_idemChar c)

theorem dropWhile_head_cases {α : Type} (p : α → Bool) (l : List α) :
    List.dropWhile p l = [] ∨
      ∃ c t, List.dropWhile p l = c :: t ∧ p c = false := by
  induction l with
  | nil => left; rfl
  | cons a rest ih =>
    rw [List.dropWhile_cons]
    split
    · exact ih
    · right
      exact ⟨a, rest, rfl, by simp_all⟩

theorem dropWhile_rdropWhile_dropWhile {α : Type} (p : α → Bool) (l : List α) :
    List.dropWhile p (List.rdropWhile p (List.dropWhile p l)) =
      List.rdropWhile p (List.dropWhile p l) := by
  rcases dropWhile_head_cases p l with h | ⟨c, t, h, hpc⟩
  · rw [h]
    simp
  · rw [h]
    have hpfx := List.rdropWhile_prefix p (c :: t)
    cases hrd : List.rdropWhile p (c :: t) with
    | nil => simp
    | cons d t2 =>
      rw [hrd] at hpfx
      obtain ⟨t3, ht3⟩ := hpfx
      have hd : d = c := by
        simpa using congrArg List.head? ht3
      rw [List.dropWhile_cons, hd, hpc]
      simp

theorem jsTrimL_idem (l : List Char) : jsTrimL (jsTrimL l) = jsTrimL l := by
  unfold jsTrimL
  rw [dropWhile_rdropWhile_dropWhile]
  exact List.rdropWhile_idempotent _ _

theorem dropWhile_map_pred {α : Type} (p : α → Bool) (f : α → α)
    (hf : ∀ c, p (f c) = p c) (l : List α) :
    List.dropWhile p (l.map f) = (List.dropWhile p l).map f := by
  have hpf : p ∘ f = p := by
    funext c
    exact hf c
  rw [List.dropWhile_map, hpf]

theorem rdropWhile_map_pred {α : Type} (p : α → Bool) (f : α → α)
    (hf : ∀ c, p (f c) = p c) (l : List α) :
    List.rdropWhile p (l.map f) = (List.rdropWhile p l).map f := by
  simp only [List.rdropWhile]
  rw [← List.map_reverse, dropWhile_map_pred p f hf, List.map_reverse]

theorem jsTrimL_upper_comm (l : List Char) :
    jsTrimL (jsUpperL l) = jsUpperL (jsTrimL l) := by
  unfold jsTrimL jsUpperL
  rw [dropWhile_map_pred isWsChar upperChar isWsChar_upperChar,
    rdropWhile_map_pred isWsChar upperChar isWsChar_upperChar]

theorem jsTrimL_subset (l : List Char) : ∀ c ∈ jsTrimL l, c ∈ l := by
  intro c hc
  unfold jsTrimL at hc
  have h1 := (List.rdropWhile_prefix isWsChar (List.dropWhile isWsChar l)).sublist.subset hc
  exact List.dropWhile_subset isWsChar h1

theorem splitPipeL_mem {l : List Char} {piece : List Char}
    (hp : piece ∈ splitPipeL l) {c : Char} (hc : c ∈ piece) :
    c ∈ l ∧ ¬(c = '|') := by
  induction l generalizing piece with
  | nil =>
    simp [splitPipeL] at hp
    subst hp
    simp at hc
  | cons a rest ih =>
    rw [splitPipeL] at hp
    by_cases ha : a = '|'
    · simp only [ha, if_pos rfl] at hp
      rcases List.mem_cons.mp hp with h | h
      · subst h; simp at hc
      · have := ih h hc
        exact ⟨List.mem_cons_of_mem a this.1, this.2⟩
    · simp only [if_neg ha] at hp
      cases hr : splitPipeL rest with
      | nil =>
        rw [hr] at hp
        simp at hp
        subst hp
        simp at hc
        subst hc
        exact ⟨List.mem_cons_self _ _, ha⟩
      | cons h0 t0 =>
        rw [hr] at hp
        rcases List.mem_cons.mp hp with h | h
        · subst h
          rcases List.mem_cons.mp hc with h | h
          · subst h
            exact ⟨List.mem_cons_self c rest, ha⟩
          · have := ih (by rw [hr]; exact List.mem_cons_self h0 t0) h
            exact ⟨List.mem_cons_of_mem a this.1, this.2⟩
        · have := ih (by rw [hr]; exact List.mem_cons_of_mem h0 h) hc
          exact ⟨List.mem_cons_of_mem a this.1, this.2⟩

/-! ## Helper lemmas: trim, uppercase and split on strings -/

theorem data_jsTrim (s : String) : (jsTrim s).data = jsTrimL s.data := rfl

theorem data_jsUpper (s : String) : (jsUpper s).data = jsUpperL s.data := rfl

theorem jsTrim_jsTrim (s : String) : jsTrim (jsTrim s) = jsTrim s := by
  cases s with
  | mk l =>
    show String.mk (jsTrimL (jsTrimL l)) = String.mk (jsTrimL l)
    rw [jsTrimL_idem]

theorem jsUpper_jsTrim_comm (s : String) : jsUpper (jsTrim s) = jsTrim (jsUpper s) := by
  cases s with
  | mk l =>
    show String.mk (jsUpperL (jsTrimL l)) = String.mk (jsTrimL (jsUpperL l))
    rw [jsTrimL_upper_comm]

theorem jsTrim_of_mem_splitPipe {v piece : String} (hp : piece ∈ splitPipe v) :
    hasPipe (jsTrim piece) = false := by
  rcases List.mem_map.mp hp with ⟨pl, hpl, hmk⟩
  subst hmk
  show (List.rdropWhile isWsChar (List.dropWhile isWsChar pl)).contains '|' = false
  by_contra hcon
  rw [Bool.not_eq_false] at hcon
  have hmem : '|' ∈ jsTrimL pl := by
    simpa [List.contains_iff_exists_mem_beq] using hcon
  have := splitPipeL_mem hpl (jsTrimL_subset pl '|' hmem)
  exact this.2 rfl

theorem jsTrim_mem_splitPipe_self {v piece : String} (hp : piece ∈ splitPipe v) :
    jsTrim (jsTrim piece) = jsTrim piece := jsTrim_jsTrim piece

/-- Characterization of collapsePipes: either the value is returned unchanged,
or the first valid non-empty trimmed part is returned. -/
theorem collapsePipes_eq_or (es : List String) (v : String) :
    collapsePipes es v = v ∨
      ∃ fv, fv ∈ (splitPipe v).map jsTrim ∧ es.contains fv = true ∧ ¬(fv = "") ∧
        collapsePipes es v = fv := by
  unfold collapsePipes
  split
  · cases hfind : ((splitPipe v).map jsTrim).find? (fun p => es.contains p) with
    | none => left; rfl
    | some fv =>
      have hmem := List.mem_of_find?_eq_some hfind
      have hcontains := List.find?_some hfind
      by_cases hfv : fv = ""
      · left
        simp [hfind, hfv]
      · right
        exact ⟨fv, hmem, hcontains, hfv, by simp [hfind, hfv]⟩
  · left; rfl

theorem enumValueOf_trim (es : List String) (s : String) :
    jsTrim (enumValueOf es s) = enumValueOf es s := by
  have hv0 : jsTrim (jsUpper (jsTrim s)) = jsUpper (jsTrim s) := by
    rw [← jsUpper_jsTrim_comm, jsTrim_jsTrim]
  unfold enumValueOf
  split
  · rcases collapsePipes_eq_or es (jsUpper (jsTrim s)) with h | ⟨fv, hmem, _, _, h⟩
    · rw [h]
      exact hv0
    · rw [h]
      rcases List.mem_map.mp hmem with ⟨piece, hpiece, hfv⟩
      subst hfv
      exact jsTrim_jsTrim piece
  · exact hv0

theorem enumValueOf_pipe_stable (es : List String) (s : String)
    (hpipe : hasPipe (enumValueOf es s) = true) :
    collapsePipes es (enumValueOf es s) = enumValueOf es s := by
  unfold enumValueOf at hpipe ⊢
  split
  · rcases collapsePipes_eq_or es (jsUpper (jsTrim s)) with h | ⟨fv, hmem, _, _, h⟩
    · rw [h]
      exact h
    · rw [h]
      rcases List.mem_map.mp hmem with ⟨piece, hpiece, hfv⟩
      rw [h] at hpipe
      split at hpipe
      all_goals rw [← hfv] at hpipe
      all_goals rw [jsTrim_of_mem_splitPipe hpiece] at hpipe
      all_goals exact absurd hpipe (by simp)
  · rename_i hnp
    split at hpipe
    · exact absurd hpipe (by simp_all)
    · exact absurd hpipe (by simp_all)

theorem enumValueOf_of_upper (es : List String) (s m : String)
    (hm : jsUpper m = enumValueOf es s) :
    enumValueOf es m = enumValueOf es s := by
  have h0 : jsUpper (jsTrim m) = enumValueOf es s := by
    rw [jsUpper_jsTrim_comm, hm, enumValueOf_trim]
  show (if hasPipe (jsUpper (jsTrim m)) then collapsePipes es (jsUpper (jsTrim m))
        else jsUpper (jsTrim m)) = enumValueOf es s
  rw [h0]
  split
  · exact enumValueOf_pipe_stable es s (by assumption)
  · rfl

theorem variations_value_fixed {w rep : String}
    (h : commonVariations.lookup w = some rep) :
    jsTrim rep = rep ∧ jsUpper rep = rep ∧ hasPipe rep = false := by
  have hmem : (w, rep) ∈ commonVariations := by
    rcases List.lookup_eq_some_iff.mp h with ⟨l1, l2, heq, _⟩
    rw [heq]
    simp
  have key : ∀ p ∈ commonVariations,
      jsTrim p.2 = p.2 ∧ jsUpper p.2 = p.2 ∧ hasPipe p.2 = false := by decide
  exact key (w, rep) hmem

theorem enumCaseUnique_eq {es : List String} (hu : enumCaseUniqueB es = true)
    {e1 e2 : String} (h1 : e1 ∈ es) (h2 : e2 ∈ es)
    (heq : jsUpper e1 = jsUpper e2) : e1 = e2 := by
  unfold enumCaseUniqueB at hu
  rw [List.all_eq_true] at hu
  have := hu e1 h1
  rw [List.all_eq_true] at this
  have := this e2 h2
  rw [heq] at this
  simpa using this

/-- Idempotence of the string branch of normalizeEnumValues, for enum lists
with no two options sharing an uppercase form. -/
theorem normalizeString_idem (es : List String) (s : String)
    (hu : enumCaseUniqueB es = true) :
    normalizeString es (normalizeString es s) = normalizeString es s := by
  cases hfind : es.find? (fun e => jsUpper e == enumValueOf es s) with
  | some m =>
    have hm : jsUpper m = enumValueOf es s := by
      have := List.find?_some hfind
      simpa using this
    have hval : enumValueOf es m = enumValueOf es s := enumValueOf_of_upper es s m hm
    have h1 : normalizeString es s = m := by
      unfold normalizeString
      rw [hfind]
    rw [h1]
    unfold normalizeString
    rw [hval, hfind]
  | none =>
    cases hlook : commonVariations.lookup (enumValueOf es s) with
    | some rep =>
      cases hrep : es.contains rep with
      | true =>
        have h1 : normalizeString es s = rep := by
          unfold normalizeString
          rw [hfind, hlook]
          simp only [hrep]
          simp
        rw [h1]
        obtain ⟨hfix1, hfix2, hfix3⟩ := variations_value_fixed hlook
        have hval : enumValueOf es rep = rep := by
          unfold enumValueOf
          rw [hfix1, hfix2, hfix3]
          simp
        unfold normalizeString
        rw [hval]
        have hmem : rep ∈ es := by
          simpa [List.contains_iff_exists_mem_beq] using hrep
        cases hfind2 : es.find? (fun e => jsUpper e == rep) with
        | none =>
          exfalso
          have := List.find?_eq_none.mp hfind2 rep hmem
          rw [hfix2] at this
          simp at this
        | some e0 =>
          have he0 : jsUpper e0 = rep := by
            have := List.find?_some hfind2
            simpa using this
          have he0mem : e0 ∈ es := List.mem_of_find?_eq_some hfind2
          have : e0 = rep := enumCaseUnique_eq hu he0mem hmem (by rw [he0, hfix2])
          rw [this]
      | false =>
        have h1 : normalizeString es s = s := by
          unfold normalizeString
          rw [hfind, hlook]
          simp only [hrep]
          simp
        rw [h1]
        exact h1
    | none =>
      have h1 : normalizeString es s = s := by
        unfold normalizeString
        rw [hfind, hlook]
      rw [h1]
      exact h1

/-! ## Helper lemmas: structure of normalizeEnumValues -/

theorem sizeOf_schema_pos (ps : Schema) : 0 < sizeOf ps := by
  cases ps with
  | mk e t p i => simp <;> omega

theorem sizeOf_props_lt (ps : Schema) : sizeOf ps.properties < sizeOf ps := by
  cases ps with
  | mk e t p i => simp [Schema.properties]; omega

theorem sizeOf_items_lt {ps it : Schema} (h : ps.items = some it) :
    sizeOf it < sizeOf ps := by
  cases ps with
  | mk e t p i =>
    simp [Schema.items] at h
    subst h
    simp
    omega

theorem lookupProp_sizeOf {k : String} {props : List (String × Schema)} {ps : Schema}
    (h : lookupProp k props = some ps) : sizeOf ps < sizeOf props := by
  induction props with
  | nil => simp [lookupProp] at h
  | cons p prest ih =>
    rw [lookupProp] at h
    split at h
    · cases h
      cases p
      simp <;> omega
    · have := ih h
      cases p
      simp <;> omega

theorem schemaOkB_parts {ps : Schema} (h : schemaOkB ps = true) :
    enumCaseUniqueB ps.enum = true ∧ propsOkB ps.properties = true ∧
      ∀ it, ps.items = some it → schemaOkB it = true := by
  rw [schemaOkB] at h
  cases hi : ps.items with
  | none =>
    rw [hi] at h
    simp at h
    refine ⟨h.1, h.2, ?_⟩
    intro it hit
    cases hit
  | some it =>
    rw [hi] at h
    simp at h
    refine ⟨h.1.1, h.1.2, ?_⟩
    intro it2 hit
    cases hit
    exact h.2

theorem propsOkB_lookup {k : String} {props : List (String × Schema)} {ps : Schema}
    (hok : propsOkB props = true) (h : lookupProp k props = some ps) :
    schemaOkB ps = true := by
  induction props with
  | nil => simp [lookupProp] at h
  | cons p prest ih =>
    rw [propsOkB] at hok
    simp at hok
    rw [lookupProp] at h
    split at h
    · cases h
      exact hok.1
    · exact ih hok.2 h

theorem applyProp_eq (ps : Schema) (v : Json) :
    applyProp ps v = itemsBranch ps (objBranch ps (stringBranch ps v)) := by
  rw [applyProp]

theorem stringBranch_str (ps : Schema) (s0 : String) :
    stringBranch ps (.str s0) =
      .str (if ps.enum.isEmpty then s0 else normalizeString ps.enum s0) := by
  simp only [stringBranch]
  split <;> rfl

theorem stringBranch_obj (ps : Schema) (fs : List (String × Json)) :
    stringBranch ps (.obj fs) = .obj fs := by
  simp [stringBranch]

theorem stringBranch_arr (ps : Schema) (xs : List Json) :
    stringBranch ps (.arr xs) = .arr xs := by
  simp [stringBranch]

theorem stringBranch_num (ps : Schema) (n : Int) :
    stringBranch ps (.num n) = .num n := by
  simp [stringBranch]

theorem stringBranch_bool (ps : Schema) (b : Bool) :
    stringBranch ps (.bool b) = .bool b := by
  simp [stringBranch]

theorem stringBranch_null (ps : Schema) :
    stringBranch ps .null = .null := by
  simp [stringBranch]

theorem objBranch_str (ps : Schema) (r : String) :
    objBranch ps (.str r) = .str r := by
  unfold objBranch
  split <;> simp

theorem objBranch_arr (ps : Schema) (xs : List Json) :
    objBranch ps (.arr xs) = .arr xs := by
  unfold objBranch
  split <;> simp

theorem objBranch_num (ps : Schema) (n : Int) :
    objBranch ps (.num n) = .num n := by
  unfold objBranch
  split <;> simp

theorem objBranch_bool (ps : Schema) (b : Bool) :
    objBranch ps (.bool b) = .bool b := by
  unfold objBranch
  split <;> simp

theorem objBranch_null (ps : Schema) :
    objBranch ps .null = .null := by
  unfold objBranch
  split <;> simp

theorem objBranch_obj (ps : Schema) (fs : List (String × Json)) :
    objBranch ps (.obj fs) =
      if ps.ty == some "object" && !ps.properties.isEmpty then
        .obj (normFields fs ps.properties)
      else .obj fs := by
  unfold objBranch
  split <;> simp

theorem itemsBranch_str (ps : Schema) (r : String) :
    itemsBranch ps (.str r) = .str r := by
  unfold itemsBranch
  split <;> (try split) <;> (first | rfl | simp_all)

theorem itemsBranch_obj (ps : Schema) (fs : List (String × Json)) :
    itemsBranch ps (.obj fs) = .obj fs := by
  unfold itemsBranch
  split <;> (try split) <;> (first | rfl | simp_all)

theorem itemsBranch_num (ps : Schema) (n : Int) :
    itemsBranch ps (.num n) = .num n := by
  unfold itemsBranch
  split <;> (try split) <;> (first | rfl | simp_all)

theorem itemsBranch_bool (ps : Schema) (b : Bool) :
    itemsBranch ps (.bool b) = .bool b := by
  unfold itemsBranch
  split <;> (try split) <;> (first | rfl | simp_all)

theorem itemsBranch_null (ps : Schema) :
    itemsBranch ps .null = .null := by
  unfold itemsBranch
  split <;> (try split) <;> (first | rfl | simp_all)

theorem itemsBranch_arr_some {ps it : Schema} (hit : ps.items = some it)
    (xs : List Json) :
    itemsBranch ps (.arr xs) =
      (if ps.ty == some "array" && !it.properties.isEmpty then
        Json.arr (normItems xs it)
      else .arr xs) := by
  unfold itemsBranch
  split
  · rename_i it2 heq
    rw [hit] at heq
    cases heq
    split <;> simp
  · rename_i heq
    rw [hit] at heq
    cases heq

theorem itemsBranch_arr_none {ps : Schema} (hit : ps.items = none) (xs : List Json) :
    itemsBranch ps (.arr xs) = .arr xs := by
  unfold itemsBranch
  split
  · rename_i it2 heq
    rw [hit] at heq
    cases heq
  · rfl

theorem applyProp_str (ps : Schema) (s0 : String) :
    applyProp ps (.str s0) =
      .str (if ps.enum.isEmpty then s0 else normalizeString ps.enum s0) := by
  rw [applyProp_eq, stringBranch_str, objBranch_str, itemsBranch_str]

theorem applyProp_obj (ps : Schema) (fs : List (String × Json)) :
    applyProp ps (.obj fs) =
      (if ps.ty == some "object" && !ps.properties.isEmpty then
        Json.obj (normFields fs ps.properties)
      else .obj fs) := by
  rw [applyProp_eq, stringBranch_obj, objBranch_obj]
  split <;> rw [itemsBranch_obj]

theorem applyProp_arr (ps : Schema) (xs : List Json) :
    applyProp ps (.arr xs) = itemsBranch ps (.arr xs) := by
  rw [applyProp_eq, stringBranch_arr, objBranch_arr]

theorem applyProp_num (ps : Schema) (n : Int) : applyProp ps (.num n) = .num n := by
  rw [applyProp_eq, stringBranch_num, objBranch_num, itemsBranch_num]

theorem applyProp_bool (ps : Schema) (b : Bool) : applyProp ps (.bool b) = .bool b := by
  rw [applyProp_eq, stringBranch_bool, objBranch_bool, itemsBranch_bool]

theorem applyProp_null (ps : Schema) : applyProp ps .null = .null := by
  rw [applyProp_eq, stringBranch_null, objBranch_null, itemsBranch_null]

theorem normFields_nil (props : List (String × Schema)) :
    normFields [] props = [] := by
  rw [normFields]

theorem normFields_cons_some {props : List (String × Schema)} {k : String}
    {ps : Schema} (hl : lookupProp k props = some ps) (v : Json)
    (rest : List (String × Json)) :
    normFields ((k, v) :: rest) props =
      (k, applyProp ps v) :: normFields rest props := by
  rw [normFields]
  split
  · rename_i heq
    rw [hl] at heq
    cases heq
    rfl
  · rename_i heq
    rw [hl] at heq
    cases heq

theorem normFields_cons_none {props : List (String × Schema)} {k : String}
    (hl : lookupProp k props = none) (v : Json) (rest : List (String × Json)) :
    normFields ((k, v) :: rest) props = (k, v) :: normFields rest props := by
  rw [normFields]
  split
  · rename_i heq
    rw [hl] at heq
    cases heq
  · rfl

theorem normItems_nil (it : Schema) : normItems [] it = [] := by
  rw [normItems]

theorem normItems_cons_obj (fs : List (String × Json)) (rest : List Json)
    (it : Schema) :
    normItems (.obj fs :: rest) it =
      Json.obj (normFields fs it.properties) :: normItems rest it := by
  rw [normItems]

theorem normItems_cons_str (s0 : String) (rest : List Json) (it : Schema) :
    normItems (.str s0 :: rest) it = Json.str s0 :: normItems rest it := by
  rw [normItems]
  exact fun fs h => Json.noConfusion h

theorem normItems_cons_num (n : Int) (rest : List Json) (it : Schema) :
    normItems (.num n :: rest) it = Json.num n :: normItems rest it := by
  rw [normItems]
  exact fun fs h => Json.noConfusion h

theorem normItems_cons_bool (b : Bool) (rest : List Json) (it : Schema) :
    normItems (.bool b :: rest) it = Json.bool b :: normItems rest it := by
  rw [normItems]
  exact fun fs h => Json.noConfusion h

theorem normItems_cons_null (rest : List Json) (it : Schema) :
    normItems (.null :: rest) it = Json.null :: normItems rest it := by
  rw [normItems]
  exact fun fs h => Json.noConfusion h

theorem normItems_cons_arr (ys : List Json) (rest : List Json) (it : Schema) :
    normItems (.arr ys :: rest) it = Json.arr ys :: normItems rest it := by
  rw [normItems]
  exact fun fs h => Json.noConfusion h

theorem normFields_idem_of (props : List (String × Schema))
    (H : ∀ k ps, lookupProp k props = some ps →
      ∀ v, applyProp ps (applyProp ps v) = applyProp ps v) :
    ∀ fields, normFields (normFields fields props) props = normFields fields props := by
  intro fields
  induction fields with
  | nil =>
    rw [normFields_nil, normFields_nil]
  | cons kv rest ih =>
    cases kv with
    | mk k v =>
      cases hl : lookupProp k props with
      | none =>
        rw [normFields_cons_none hl, normFields_cons_none hl, ih]
      | some ps =>
        rw [normFields_cons_some hl, normFields_cons_some hl, ih, H k ps hl v]

theorem normItems_idem_of (it : Schema)
    (H : ∀ k ps, lookupProp k it.properties = some ps →
      ∀ v, applyProp ps (applyProp ps v) = applyProp ps v) :
    ∀ xs, normItems (normItems xs it) it = normItems xs it := by
  intro xs
  induction xs with
  | nil =>
    rw [normItems_nil, normItems_nil]
  | cons x rest ih =>
    cases x with
    | obj fs =>
      rw [normItems_cons_obj, normItems_cons_obj, ih]
      rw [normFields_idem_of it.properties H fs]
    | str s0 => rw [normItems_cons_str, normItems_cons_str, ih]
    | num n => rw [normItems_cons_num, normItems_cons_num, ih]
    | bool b => rw [normItems_cons_bool, normItems_cons_bool, ih]
    | null => rw [normItems_cons_null, normItems_cons_null, ih]
    | arr ys => rw [normItems_cons_arr, normItems_cons_arr, ih]

/-- Idempotence of the per-property transformation of normalizeEnumValues,
by strong induction on the schema size. -/
theorem applyProp_idem_strong (n : Nat) :
    ∀ ps : Schema, sizeOf ps ≤ n → schemaOkB ps = true →
      ∀ v, applyProp ps (applyProp ps v) = applyProp ps v := by
  induction n with
  | zero =>
    intro ps hsz
    exact absurd hsz (by have := sizeOf_schema_pos ps; omega)
  | succ n ih =>
    intro ps hsz hok v
    obtain ⟨hu, hprops, hitems⟩ := schemaOkB_parts hok
    have Hprops : ∀ k ps2, lookupProp k ps.properties = some ps2 →
        ∀ w, applyProp ps2 (applyProp ps2 w) = applyProp ps2 w := by
      intro k ps2 hl w
      have hsz2 : sizeOf ps2 ≤ n := by
        have h1 := lookupProp_sizeOf hl
        have h2 := sizeOf_props_lt ps
        omega
      exact ih ps2 hsz2 (propsOkB_lookup hprops hl) w
    cases v with
    | str s0 =>
      rw [applyProp_str, applyProp_str]
      by_cases he : ps.enum.isEmpty
      · simp [he]
      · simp only [if_neg he]
        rw [normalizeString_idem ps.enum s0 hu]
    | obj fs =>
      rw [applyProp_obj]
      split
      · rw [applyProp_obj]
        split
        · rw [normFields_idem_of ps.properties Hprops fs]
        · simp_all
      · rw [applyProp_obj]
        split
        · simp_all
        · rfl
    | arr xs =>
      cases hit : ps.items with
      | none =>
        rw [applyProp_arr, itemsBranch_arr_none hit, applyProp_arr,
          itemsBranch_arr_none hit]
      | some it =>
        have Hit : ∀ k ps2, lookupProp k it.properties = some ps2 →
            ∀ w, applyProp ps2 (applyProp ps2 w) = applyProp ps2 w := by
          intro k ps2 hl w
          have hsz2 : sizeOf ps2 ≤ n := by
            have h1 := lookupProp_sizeOf hl
            have h2 := sizeOf_props_lt it
            have h3 := sizeOf_items_lt hit
            omega
          exact ih ps2 hsz2 (propsOkB_lookup (schemaOkB_parts (hitems it hit)).2.1 hl) w
        rw [applyProp_arr, itemsBranch_arr_some hit]
        split
        · rw [applyProp_arr, itemsBranch_arr_some hit]
          split
          · rw [normItems_idem_of it Hit xs]
          · simp_all
        · rw [applyProp_arr, itemsBranch_arr_some hit]
          split
          · simp_all
          · rfl
    | num m => rw [applyProp_num, applyProp_num]
    | bool b => rw [applyProp_bool, applyProp_bool]
    | null => rw [applyProp_null, applyProp_null]

/-! ## Claim theorems -/

/-- C3: with a jsonSchema configured and desired output format json, the
runner requests stream-json and omits the --json-schema flag when
strictSchema is false, and requests json with the schema flag when
strictSchema is true. -/
theorem claim_schema_streaming_policy (jsonSchema : Option Json)
    (h : jsonSchema.isSome = true) :
    runOutputFormat jsonSchema "json" false = "stream-json" ∧
    passesSchemaArg jsonSchema (runOutputFormat jsonSchema "json" false) = false ∧
    runOutputFormat jsonSchema "json" true = "json" ∧
    passesSchemaArg jsonSchema (runOutputFormat jsonSchema "json" true) = true := by
  refine ⟨?_, ?_, ?_, ?_⟩ <;> simp [runOutputFormat, passesSchemaArg, h]

/-- Witness for C3 at a concrete schema. -/
theorem claim_schema_streaming_policy_witness :
    runOutputFormat (some Json.null) "json" false = "stream-json" ∧
    passesSchemaArg (some Json.null) (runOutputFormat (some Json.null) "json" false) = false ∧
    runOutputFormat (some Json.null) "json" true = "json" ∧
    passesSchemaArg (some Json.null) (runOutputFormat (some Json.null) "json" true) = true :=
  claim_schema_streaming_policy (some Json.null) rfl

/-- C9: a falsy requested model (absent or empty) resolves to the maxModel
ceiling itself, with no validity check of the names and no floor check. -/
theorem claim_default_to_ceiling :
    (∀ (maxModel : String) (minModel : Option String),
      validateModelAgainstMax none maxModel minModel = .ok maxModel) ∧
    (∀ (maxModel : String) (minModel : Option String),
      validateModelAgainstMax (some "") maxModel minModel = .ok maxModel) := by
  constructor <;> intro maxModel minModel <;> simp [validateModelAgainstMax]

/-- C7: cleanStaleLock unlinks the lock exactly when its age strictly exceeds
the 5000 ms threshold, leaves younger locks in place, and the lock options
retry 20 times with 100 - 200 ms jittered delays, bounding backoff by 4 s. -/
theorem claim_stale_lock_policy :
    (∀ (now : Int) (st : LockState), st.present = true →
      (LOCK_STALE_MS : Int) < now - st.mtimeMs →
      (cleanStaleLock now st).present = false) ∧
    (∀ (now : Int) (st : LockState), st.present = true →
      ¬((LOCK_STALE_MS : Int) < now - st.mtimeMs) →
      cleanStaleLock now st = st) ∧
    (∀ (now : Int) (st : LockState), st.present = false →
      cleanStaleLock now st = st) ∧
    (LOCK_OPTIONS.retries = 20 ∧ LOCK_OPTIONS.minTimeout = 100 ∧
      LOCK_OPTIONS.maxTimeout = 200 ∧ LOCK_OPTIONS.randomize = true ∧
      LOCK_STALE_MS = 5000) ∧
    (∀ delays : List Nat, delays.length ≤ LOCK_OPTIONS.retries →
      (∀ d ∈ delays, LOCK_OPTIONS.minTimeout ≤ d ∧ d ≤ LOCK_OPTIONS.maxTimeout) →
      delays.sum ≤ 4000) := by
  have key : ∀ ds : List Nat, (∀ d ∈ ds, d ≤ 200) → ds.sum ≤ ds.length * 200 := by
    intro ds
    induction ds with
    | nil => intro _; simp
    | cons d rest ih =>
      intro hb
      have hd := hb d (List.mem_cons_self d rest)
      have hr := ih (fun x hx => hb x (List.mem_cons_of_mem d hx))
      simp [List.sum_cons]
      omega
  refine ⟨?_, ?_, ?_, ⟨rfl, rfl, rfl, rfl, rfl⟩, ?_⟩
  · intro now st h1 h2
    simp [cleanStaleLock, h1, h2]
  · intro now st h1 h2
    simp [cleanStaleLock, h1, h2]
  · intro now st h1
    simp [cleanStaleLock, h1]
  · intro delays hlen hb
    have h1 := key delays (fun d hd => (hb d hd).2)
    have h2 : delays.length ≤ 20 := hlen
    have : delays.length * 200 ≤ 20 * 200 := Nat.mul_le_mul_right 200 h2
    omega

/-- Witness for C7: a 6 s old lock is broken, a 4 s old lock is kept, and a
retry schedule within bounds sums below 4 s. -/
theorem claim_stale_lock_policy_witness :
    (cleanStaleLock 6000 ⟨true, 0⟩).present = false ∧
    cleanStaleLock 4000 ⟨true, 0⟩ = ⟨true, 0⟩ ∧
    ([100, 200, 150] : List Nat).sum ≤ 4000 :=
  ⟨claim_stale_lock_policy.1 6000 ⟨true, 0⟩ rfl (by decide),
   claim_stale_lock_policy.2.1 4000 ⟨true, 0⟩ rfl (by decide),
   claim_stale_lock_policy.2.2.2.2 [100, 200, 150] (by decide) (by decide)⟩

/-- C8: content that exists but fails to parse makes loadTasks/loadSchedules
throw the corrupt-store diagnostic (which carries the parse error and the
first 200 characters of the content), and never yields a result value. -/
theorem claim_corrupt_store_fatal (parse : String → Except String Json)
    (content errMsg : String) (hp : parse content = .error errMsg) :
    loadTasks parse (some content) =
      .error (corruptStoreMessage "tasks.json" errMsg content) ∧
    loadSchedules parse (some content) =
      .error (corruptStoreMessage "schedules.json" errMsg content) ∧
    (∀ v, ¬ loadTasks parse (some content) = .ok v) ∧
    (∀ v, ¬ loadSchedules parse (some content) = .ok v) := by
  refine ⟨?_, ?_, ?_, ?_⟩ <;> simp [loadTasks, loadSchedules, loadStore, hp]

/-- Witness for C8 with a concrete failing parse. -/
theorem claim_corrupt_store_fatal_witness :
    loadTasks (fun _ => .error "Unexpected token") (some "not json") =
      .error (corruptStoreMessage "tasks.json" "Unexpected token" "not json") ∧
    loadSchedules (fun _ => .error "Unexpected token") (some "not json") =
      .error (corruptStoreMessage "schedules.json" "Unexpected token" "not json") ∧
    (∀ v, ¬ loadTasks (fun _ => .error "Unexpected token") (some "not json") = .ok v) ∧
    (∀ v, ¬ loadSchedules (fun _ => .error "Unexpected token") (some "not json") = .ok v) :=
  claim_corrupt_store_fatal (fun _ => .error "Unexpected token") "not json"
    "Unexpected token" rfl

/-- C10: loadSettings is total over the file states — defaults when the file
is absent or unreadable (including unparseable content), and parsed values
merged over the defaults field by field when it parses. -/
theorem claim_load_settings_total_merge :
    loadSettings .absent = DEFAULT_SETTINGS ∧
    loadSettings .unreadable = DEFAULT_SETTINGS ∧
    (∀ p, (loadSettings (.parsed p)).maxModel =
      p.maxModel.getD DEFAULT_SETTINGS.maxModel) ∧
    (∀ p, (loadSettings (.parsed p)).minModel =
      p.minModel.getD DEFAULT_SETTINGS.minModel) ∧
    (∀ p, (loadSettings (.parsed p)).defaultConfig =
      p.defaultConfig.getD DEFAULT_SETTINGS.defaultConfig) ∧
    (∀ p, (loadSettings (.parsed p)).defaultDocker =
      p.defaultDocker.getD DEFAULT_SETTINGS.defaultDocker) ∧
    (∀ p, (loadSettings (.parsed p)).strictSchema =
      p.strictSchema.getD DEFAULT_SETTINGS.strictSchema) ∧
    (∀ p, (loadSettings (.parsed p)).logLevel =
      p.logLevel.getD DEFAULT_SETTINGS.logLevel) ∧
    (∀ p, (loadSettings (.parsed p)).autoCheckUpdates =
      p.autoCheckUpdates.getD DEFAULT_SETTINGS.autoCheckUpdates) ∧
    (∀ p, (loadSettings (.parsed p)).lastUpdateCheckAt =
      p.lastUpdateCheckAt.getD DEFAULT_SETTINGS.lastUpdateCheckAt) ∧
    (∀ p, (loadSettings (.parsed p)).lastSeenVersion =
      p.lastSeenVersion.getD DEFAULT_SETTINGS.lastSeenVersion) ∧
    (∀ p, (loadSettings (.parsed p)).claudeCommand =
      p.claudeCommand.getD DEFAULT_SETTINGS.claudeCommand) ∧
    (∀ p, (loadSettings (.parsed p)).dockerMounts =
      p.dockerMounts.getD DEFAULT_SETTINGS.dockerMounts) ∧
    (∀ p, (loadSettings (.parsed p)).dockerEnvPassthrough =
      p.dockerEnvPassthrough.getD DEFAULT_SETTINGS.dockerEnvPassthrough) ∧
    (∀ p, (loadSettings (.parsed p)).dockerContainerHome =
      p.dockerContainerHome.getD DEFAULT_SETTINGS.dockerContainerHome) ∧
    (∀ p, (loadSettings (.parsed p)).defaultProvider =
      (if normalizeProviderName
            ((p.defaultProvider.map normalizeProviderName).getD
              DEFAULT_SETTINGS.defaultProvider) = "" then
        DEFAULT_SETTINGS.defaultProvider
      else
        normalizeProviderName
          ((p.defaultProvider.map normalizeProviderName).getD
            DEFAULT_SETTINGS.defaultProvider))) ∧
    (∀ p, (loadSettings (.parsed p)).providerSettings.codex =
      applyPartialLevels DEFAULT_SETTINGS.providerSettings.codex
        (match p.providerSettings.map normalizeProviderSettings with
         | some o => o.codex
         | none => none)) ∧
    (∀ p, (loadSettings (.parsed p)).providerSettings.gemini =
      applyPartialLevels DEFAULT_SETTINGS.providerSettings.gemini
        (match p.providerSettings.map normalizeProviderSettings with
         | some o => o.gemini
         | none => none)) := by
  refine ⟨rfl, rfl, ?_, ?_, ?_, ?_, ?_, ?_, ?_, ?_, ?_, ?_, ?_, ?_, ?_, ?_, ?_, ?_⟩ <;>
    intro p <;>
    first
      | rfl
      | (cases hps : p.providerSettings <;>
          simp [loadSettings, normalizeLoadedSettings, mergeProviderSettings, hps,
            applyLegacyModelBounds, applyPartialLevels])

theorem isErr_error {ε α : Type} (e : ε) : isErr (Except.error e : Except ε α) = true := rfl

theorem isErr_ok {ε α : Type} (a : α) : isErr (Except.ok a : Except ε α) = false := rfl

/-- Behaviour of validateModelAgainstMax over the three legacy model names,
expressed through the hierarchy ranks. -/
theorem validateModel_trio (r mx mn : String) (hr : r ∈ VALID_MODELS)
    (hmx : mx ∈ VALID_MODELS) (hmn : mn ∈ VALID_MODELS) :
    isErr (validateModelAgainstMax (some r) mx (some mn)) =
      decide (modelRank mx < modelRank r ∨ modelRank r < modelRank mn) ∧
    (¬(modelRank mx < modelRank r ∨ modelRank r < modelRank mn) →
      validateModelAgainstMax (some r) mx (some mn) = .ok r) := by
  fin_cases hr <;> fin_cases hmx <;> fin_cases hmn <;> exact ⟨by decide, by decide⟩

theorem mem_contains_string {l : List String} {x : String} (h : x ∈ l) :
    l.contains x = true := by
  simp [List.contains_iff_exists_mem_beq]
  exact h

/-- Error behaviour of the per-rule validation loop, expressed through the
hierarchy ranks, under valid rule models and levels. -/
theorem validateRuleModels_isErr (agentId : String) (mx mn : String)
    (hmx : mx ∈ VALID_MODELS) (hmn : mn ∈ VALID_MODELS) :
    ∀ rules : List ModelRule,
      (∀ rule ∈ rules, (∀ mo, rule.model = some mo → mo ∈ VALID_MODELS) ∧
        (∀ lv, rule.modelLevel = some lv → lv ∈ VALID_LEVELS)) →
      isErr (validateRuleModels agentId mx (some mn) rules) =
        rules.any (fun rule =>
          match rule.model with
          | some mo => decide (modelRank mx < modelRank mo ∨ modelRank mo < modelRank mn)
          | none => false) := by
  intro rules
  induction rules with
  | nil => intro _; rfl
  | cons rule rest ih =>
    intro hyp
    have hhead := hyp rule (List.mem_cons_self _ _)
    have htail := fun r2 h2 => hyp r2 (List.mem_cons_of_mem rule h2)
    cases hm : rule.model with
    | none =>
      cases hlv : rule.modelLevel with
      | none =>
        simp [validateRuleModels, hm, hlv, List.any_cons, ih htail, bind, Except.bind, pure,
          Except.pure, throw, throwThe, MonadExceptOf.throw, isErr_error, isErr_ok]
      | some lv =>
        have hmemlv : lv ∈ VALID_LEVELS := hhead.2 lv hlv
        simp [validateRuleModels, hm, hlv, hmemlv, List.any_cons, ih htail, bind, Except.bind,
          pure, Except.pure, throw, throwThe, MonadExceptOf.throw, isErr_error, isErr_ok]
    | some mo =>
      have hmo := hhead.1 mo hm
      have hverdict := validateModel_trio mo mx mn hmo hmx hmn
      have h1 := hverdict.1
      cases hv : validateModelAgainstMax (some mo) mx (some mn) with
      | error e =>
        rw [hv, isErr_error] at h1
        have htrueP : modelRank mx < modelRank mo ∨ modelRank mo < modelRank mn :=
          of_decide_eq_true h1.symm
        simp [validateRuleModels, hm, hv, hmo, List.any_cons, bind, Except.bind, pure,
          Except.pure, throw, throwThe, MonadExceptOf.throw, isErr_error, isErr_ok, htrueP]
      | ok x =>
        rw [hv, isErr_ok] at h1
        have hfalseP : ¬(modelRank mx < modelRank mo ∨ modelRank mo < modelRank mn) :=
          of_decide_eq_false h1.symm
        cases hlv : rule.modelLevel with
        | none =>
          simp [validateRuleModels, hm, hv, hmo, hlv, List.any_cons, ih htail, bind,
            Except.bind, pure, Except.pure, throw, throwThe, MonadExceptOf.throw,
            isErr_error, isErr_ok, hfalseP]
        | some lv =>
          have hmemlv : lv ∈ VALID_LEVELS := hhead.2 lv hlv
          simp [validateRuleModels, hm, hv, hmo, hlv, hmemlv, List.any_cons,
            ih htail, bind, Except.bind, pure, Except.pure, throw, throwThe,
            MonadExceptOf.throw, isErr_error, isErr_ok, hfalseP]

/-- C1: over the legacy model names, validateModelAgainstMax throws exactly
when the requested model ranks above the ceiling or below the floor and
otherwise returns the requested model, and validateAgentConfig applies the
same check to the static model and to every model rule at config time. -/
theorem claim_model_ceiling_floor :
    (∀ r mx mn, r ∈ VALID_MODELS → mx ∈ VALID_MODELS → mn ∈ VALID_MODELS →
      isErr (validateModelAgainstMax (some r) mx (some mn)) =
        decide (modelRank mx < modelRank r ∨ modelRank r < modelRank mn) ∧
      (¬(modelRank mx < modelRank r ∨ modelRank r < modelRank mn) →
        validateModelAgainstMax (some r) mx (some mn) = .ok r)) ∧
    (∀ agentId r mx mn, r ∈ VALID_MODELS → mx ∈ VALID_MODELS → mn ∈ VALID_MODELS →
      isErr (validateConfigModels agentId (.static (some r) none) mx (some mn)) =
        isErr (validateModelAgainstMax (some r) mx (some mn))) ∧
    (∀ agentId mx mn rules, mx ∈ VALID_MODELS → mn ∈ VALID_MODELS →
      (∀ rule ∈ rules, (∀ mo, rule.model = some mo → mo ∈ VALID_MODELS) ∧
        (∀ lv, rule.modelLevel = some lv → lv ∈ VALID_LEVELS)) →
      isErr (validateConfigModels agentId (.rules rules) mx (some mn)) =
        rules.any (fun rule =>
          match rule.model with
          | some mo => decide (modelRank mx < modelRank mo ∨ modelRank mo < modelRank mn)
          | none => false)) := by
  refine ⟨fun r mx mn hr hmx hmn => validateModel_trio r mx mn hr hmx hmn, ?_, ?_⟩
  · intro agentId r mx mn hr hmx hmn
    cases hv : validateModelAgainstMax (some r) mx (some mn) with
    | error e => simp [validateConfigModels, hr, hv, bind, Except.bind, pure, Except.pure,
        throw, throwThe, MonadExceptOf.throw, isErr_error, isErr_ok]
    | ok x => simp [validateConfigModels, hr, hv, bind, Except.bind, pure, Except.pure,
        throw, throwThe, MonadExceptOf.throw, isErr_error, isErr_ok]
  · intro agentId mx mn rules hmx hmn hyp
    have : validateConfigModels agentId (.rules rules) mx (some mn) =
        validateRuleModels agentId mx (some mn) rules := rfl
    rw [this]
    exact validateRuleModels_isErr agentId mx mn hmx hmn rules hyp

/-- Witness for C1: an opus request under a sonnet ceiling errors, a sonnet
request within bounds passes, and a violating model rule is rejected at
config time. -/
theorem claim_model_ceiling_floor_witness :
    (isErr (validateModelAgainstMax (some "opus") "sonnet" (some "haiku")) =
        decide (modelRank "sonnet" < modelRank "opus" ∨
          modelRank "opus" < modelRank "haiku") ∧
      (¬(modelRank "sonnet" < modelRank "opus" ∨ modelRank "opus" < modelRank "haiku") →
        validateModelAgainstMax (some "opus") "sonnet" (some "haiku") = .ok "opus")) ∧
    isErr (validateConfigModels "w" (.static (some "opus") none) "sonnet" (some "haiku")) =
      isErr (validateModelAgainstMax (some "opus") "sonnet" (some "haiku")) ∧
    isErr (validateConfigModels "w"
        (.rules [{ iterations := "1", model := some "opus", modelLevel := none }])
        "sonnet" (some "haiku")) =
      ([{ iterations := "1", model := some "opus", modelLevel := none }] : List ModelRule).any
        (fun rule =>
          match rule.model with
          | some mo => decide (modelRank "sonnet" < modelRank mo ∨
              modelRank mo < modelRank "haiku")
          | none => false) :=
  ⟨claim_model_ceiling_floor.1 "opus" "sonnet" "haiku" (by decide) (by decide) (by decide),
   claim_model_ceiling_floor.2.1 "w" "opus" "sonnet" "haiku" (by decide) (by decide)
     (by decide),
   claim_model_ceiling_floor.2.2 "w" "sonnet" "haiku"
     [{ iterations := "1", model := some "opus", modelLevel := none }]
     (by decide) (by decide)
     (by
       intro rule hrule
       simp at hrule
       subst hrule
       refine ⟨?_, ?_⟩
       · intro mo hmo
         cases hmo
         decide
       · intro lv hlv
         cases hlv)⟩

/-- C2: model selection over modelRules, modelled from the spec — the four
pattern forms select as specified, the first declared matching rule wins,
and selection with no matching rule fails with a NO_MODEL_RULE error naming
the current iteration. -/
theorem claim_model_selection_rules :
    (∀ i, matchesIteration "all" i = .ok true) ∧
    (∀ i, matchesIteration "3" i = .ok (i == 3)) ∧
    (∀ i, matchesIteration "2-4" i = .ok (decide (2 ≤ i) && decide (i ≤ 4))) ∧
    (∀ i, matchesIteration "5+" i = .ok (decide (5 ≤ i))) ∧
    (∀ (rule : ModelRule) (rest : List ModelRule) (i : Nat),
      matchesIteration rule.iterations i = .ok true →
      selectModelFromRules i (rule :: rest) = .ok rule.model) ∧
    (∀ (i : Nat) (rules : List ModelRule),
      (∀ rule ∈ rules, matchesIteration rule.iterations i = .ok false) →
      selectModelFromRules i rules = .error (.noModelRule i)) := by
  have hall : parseIterationPattern "all" = some .always := by decide
  have h3 : parseIterationPattern "3" = some (.exact 3) := by decide
  have h24 : parseIterationPattern "2-4" = some (.range 2 4) := by decide
  have h5p : parseIterationPattern "5+" = some (.atLeast 5) := by decide
  refine ⟨?_, ?_, ?_, ?_, ?_, ?_⟩
  · intro i
    simp [matchesIteration, hall, iterPatternMatches]
  · intro i
    simp [matchesIteration, h3, iterPatternMatches]
  · intro i
    simp [matchesIteration, h24, iterPatternMatches]
  · intro i
    simp [matchesIteration, h5p, iterPatternMatches]
  · intro rule rest i h
    simp [selectModelFromRules, h, bind, Except.bind, pure, Except.pure]
  · intro i rules
    induction rules with
    | nil => intro _; rfl
    | cons rule rest ih =>
      intro hyp
      have hhead := hyp rule (List.mem_cons_self _ _)
      have htail := ih (fun r2 h2 => hyp r2 (List.mem_cons_of_mem rule h2))
      simp [selectModelFromRules, hhead, htail, bind, Except.bind, pure, Except.pure]

/-- Witness for C2: the overlapping-rules test case (first declared rule
wins at iteration 7) and the no-match test case (NO_MODEL_RULE at
iteration 5). -/
theorem claim_model_selection_rules_witness :
    selectModelFromRules 7
        [{ iterations := "1-10", model := some "sonnet", modelLevel := none },
         { iterations := "5+", model := some "opus", modelLevel := none }] =
      .ok (some "sonnet") ∧
    selectModelFromRules 5
        [{ iterations := "1-2", model := some "sonnet", modelLevel := none }] =
      .error (.noModelRule 5) :=
  ⟨claim_model_selection_rules.2.2.2.2.1
     { iterations := "1-10", model := some "sonnet", modelLevel := none }
     [{ iterations := "5+", model := some "opus", modelLevel := none }] 7 (by decide),
   claim_model_selection_rules.2.2.2.2.2 5
     [{ iterations := "1-2", model := some "sonnet", modelLevel := none }]
     (by
       intro rule hrule
       simp at hrule
       subst hrule
       decide)⟩

/-! ## C6: legacy model bounds on load -/

/-- Concrete rank of level1 in LEVEL_RANKS. -/
theorem lookup_level1 : LEVEL_RANKS.lookup "level1" = some 1 := rfl

/-- Concrete rank of level2 in LEVEL_RANKS. -/
theorem lookup_level2 : LEVEL_RANKS.lookup "level2" = some 2 := rfl

/-- Concrete rank of level3 in LEVEL_RANKS. -/
theorem lookup_level3 : LEVEL_RANKS.lookup "level3" = some 3 := rfl

/-- Any level name ranks between 1 and 3 once unknown names default to
rank 2 (the defaultLevel fallback of applyLegacyModelBounds). -/
theorem levelRank_defaultD_bounds (lv : String) :
    1 ≤ ((LEVEL_RANKS.lookup lv).getD 2) ∧ ((LEVEL_RANKS.lookup lv).getD 2) ≤ 3 := by
  simp only [LEVEL_RANKS, List.lookup]
  repeat' split
  all_goals simp_all

/-- Inversion of mapLegacyModelToLevel: a successful mapping comes from one
of the three legacy names with its fixed level. -/
theorem mapLegacy_cases {m lv : String} (h : mapLegacyModelToLevel m = some lv) :
    (m = "haiku" ∧ lv = "level1") ∨ (m = "sonnet" ∧ lv = "level2") ∨
    (m = "opus" ∧ lv = "level3") := by
  unfold mapLegacyModelToLevel at h
  repeat' split at h
  all_goals simp_all

/-- **C6**: loading settings maps legacy model names onto the claude provider
bounds. mapLegacyModelToLevel sends haiku, sonnet, opus to level1, level2,
level3; loadSettings on a parsed file ends by applying applyLegacyModelBounds
to the merged settings; and applyLegacyModelBounds, when both legacy names map,
either resets inconsistent bounds to level1..level3 leaving the default level
untouched, or installs the mapped maxLevel and minLevel and clamps the claude
defaultLevel rank into the [minLevel, maxLevel] rank range. -/
theorem claim_legacy_model_bounds :
    (mapLegacyModelToLevel "haiku" = some "level1" ∧
     mapLegacyModelToLevel "sonnet" = some "level2" ∧
     mapLegacyModelToLevel "opus" = some "level3") ∧
    (∀ p : PartialSettings, ∃ merged : Settings,
       loadSettings (.parsed p) = applyLegacyModelBounds merged) ∧
    (∀ (s : Settings) (lmax lmin : String),
       mapLegacyModelToLevel s.maxModel = some lmax →
       s.minModel.bind mapLegacyModelToLevel = some lmin →
       ((LEVEL_RANKS.lookup lmax).getD 3 < (LEVEL_RANKS.lookup lmin).getD 1 →
          (applyLegacyModelBounds s).providerSettings.claude.minLevel = "level1" ∧
          (applyLegacyModelBounds s).providerSettings.claude.maxLevel = "level3" ∧
          (applyLegacyModelBounds s).providerSettings.claude.defaultLevel =
            s.providerSettings.claude.defaultLevel) ∧
       ((LEVEL_RANKS.lookup lmin).getD 1 ≤ (LEVEL_RANKS.lookup lmax).getD 3 →
          (applyLegacyModelBounds s).providerSettings.claude.maxLevel = lmax ∧
          (applyLegacyModelBounds s).providerSettings.claude.minLevel = lmin ∧
          (LEVEL_RANKS.lookup lmin).getD 1 ≤
            (LEVEL_RANKS.lookup
              ((applyLegacyModelBounds s).providerSettings.claude.defaultLevel)).getD 2 ∧
          (LEVEL_RANKS.lookup
              ((applyLegacyModelBounds s).providerSettings.claude.defaultLevel)).getD 2 ≤
            (LEVEL_RANKS.lookup lmax).getD 3)) := by
  refine ⟨⟨rfl, rfl, rfl⟩, fun p => ⟨_, rfl⟩, ?_⟩
  intro s lmax lmin hmax hmin
  rcases hsm : s.minModel with _ | n
  · rw [hsm] at hmin; simp at hmin
  · rw [hsm] at hmin
    have hmin2 : mapLegacyModelToLevel n = some lmin := hmin
    rcases mapLegacy_cases hmax with ⟨hx, rfl⟩ | ⟨hx, rfl⟩ | ⟨hx, rfl⟩ <;>
      rcases mapLegacy_cases hmin2 with ⟨hn, rfl⟩ | ⟨hn, rfl⟩ | ⟨hn, rfl⟩ <;>
      (have hb := levelRank_defaultD_bounds s.providerSettings.claude.defaultLevel) <;>
      constructor <;> intro hcmp <;>
      simp_all [applyLegacyModelBounds, mapLegacyModelToLevel,
        lookup_level1, lookup_level2, lookup_level3] <;>
      repeat' split <;>
      first
        | omega
        | (simp_all [lookup_level1, lookup_level2, lookup_level3]
           all_goals omega)
        | skip

/-- Witness for C6: an inconsistent pair (maxModel haiku, minModel opus)
resets the claude bounds to level1..level3, and a consistent pair (maxModel
sonnet, minModel haiku) installs level2/level1 with the default rank clamped. -/
theorem claim_legacy_model_bounds_witness :
    ((applyLegacyModelBounds { DEFAULT_SETTINGS with
        maxModel := "haiku"
        minModel := some "opus" }).providerSettings.claude.minLevel = "level1" ∧
     (applyLegacyModelBounds { DEFAULT_SETTINGS with
        maxModel := "haiku"
        minModel := some "opus" }).providerSettings.claude.maxLevel = "level3" ∧
     (applyLegacyModelBounds { DEFAULT_SETTINGS with
        maxModel := "haiku"
        minModel := some "opus" }).providerSettings.claude.defaultLevel =
       "level2") ∧
    ((applyLegacyModelBounds { DEFAULT_SETTINGS with
        maxModel := "sonnet"
        minModel := some "haiku" }).providerSettings.claude.maxLevel = "level2" ∧
     (applyLegacyModelBounds { DEFAULT_SETTINGS with
        maxModel := "sonnet"
        minModel := some "haiku" }).providerSettings.claude.minLevel = "level1" ∧
     (LEVEL_RANKS.lookup "level1").getD 1 ≤
       (LEVEL_RANKS.lookup
         ((applyLegacyModelBounds { DEFAULT_SETTINGS with
            maxModel := "sonnet"
            minModel := some "haiku" }).providerSettings.claude.defaultLevel)).getD 2 ∧
     (LEVEL_RANKS.lookup
         ((applyLegacyModelBounds { DEFAULT_SETTINGS with
            maxModel := "sonnet"
            minModel := some "haiku" }).providerSettings.claude.defaultLevel)).getD 2 ≤
       (LEVEL_RANKS.lookup "level2").getD 3) := by
  constructor
  · exact (claim_legacy_model_bounds.2.2
      { DEFAULT_SETTINGS with
        maxModel := "haiku"
        minModel := some "opus" }
      "level1" "level3" rfl rfl).1 (by decide)
  · exact (claim_legacy_model_bounds.2.2
      { DEFAULT_SETTINGS with
        maxModel := "sonnet"
        minModel := some "haiku" }
      "level2" "level1" rfl rfl).2 (by decide)

/-! ## C4: idempotence of enum normalization -/

/-- **C4 counterexample**: with an enum holding the two options Debug and
DEBUG, which share an uppercase form, the input string fix maps to DEBUG after
one pass (through the common-variations table) but to Debug after two passes
(the case-insensitive exact match then hits the other option first), so
normalizeEnumValues is not idempotent for every payload and schema. -/
theorem claim_enum_idempotent_counterexample :
    normalizeEnumValues (Json.obj [("taskType", Json.str "fix")])
        (Schema.mk [] none
          [("taskType", Schema.mk ["Debug", "DEBUG"] none [] none)] none) =
      Json.obj [("taskType", Json.str "DEBUG")] ∧
    normalizeEnumValues (Json.obj [("taskType", Json.str "DEBUG")])
        (Schema.mk [] none
          [("taskType", Schema.mk ["Debug", "DEBUG"] none [] none)] none) =
      Json.obj [("taskType", Json.str "Debug")] ∧
    ¬(normalizeEnumValues
        (normalizeEnumValues (Json.obj [("taskType", Json.str "fix")])
          (Schema.mk [] none
            [("taskType", Schema.mk ["Debug", "DEBUG"] none [] none)] none))
        (Schema.mk [] none
          [("taskType", Schema.mk ["Debug", "DEBUG"] none [] none)] none) =
      normalizeEnumValues (Json.obj [("taskType", Json.str "fix")])
        (Schema.mk [] none
          [("taskType", Schema.mk ["Debug", "DEBUG"] none [] none)] none)) := by
  have h1 : normalizeEnumValues (Json.obj [("taskType", Json.str "fix")])
      (Schema.mk [] none
        [("taskType", Schema.mk ["Debug", "DEBUG"] none [] none)] none) =
      Json.obj [("taskType", Json.str "DEBUG")] := by
    simp +decide [normalizeEnumValues, normFields, applyProp, itemsBranch, objBranch,
      stringBranch, normalizeString, enumValueOf, collapsePipes, lookupProp, hasPipe,
      jsUpper, jsTrim, jsUpperL, jsTrimL, upperChar, isWsChar, splitPipe, splitPipeL,
      commonVariations, letterPairs, Schema.enum, Schema.ty, Schema.properties,
      Schema.items]
  have h2 : normalizeEnumValues (Json.obj [("taskType", Json.str "DEBUG")])
      (Schema.mk [] none
        [("taskType", Schema.mk ["Debug", "DEBUG"] none [] none)] none) =
      Json.obj [("taskType", Json.str "Debug")] := by
    simp +decide [normalizeEnumValues, normFields, applyProp, itemsBranch, objBranch,
      stringBranch, normalizeString, enumValueOf, collapsePipes, lookupProp, hasPipe,
      jsUpper, jsTrim, jsUpperL, jsTrimL, upperChar, isWsChar, splitPipe, splitPipeL,
      commonVariations, letterPairs, Schema.enum, Schema.ty, Schema.properties,
      Schema.items]
  refine ⟨h1, h2, ?_⟩
  rw [h1, h2]
  simp

/-- **C4** (amended): normalizeEnumValues is idempotent for every payload and
every schema all of whose reachable enum lists (own properties, nested object
properties, array items) are case-unique, that is, no two options of one enum
share an uppercase form; the unamended claim fails on schemas with
case-duplicate enum options (see the counterexample). -/
theorem claim_enum_idempotent (v : Json) (S : Schema)
    (h : schemaOkB S = true) :
    normalizeEnumValues (normalizeEnumValues v S) S = normalizeEnumValues v S := by
  cases v with
  | obj fields =>
    obtain ⟨hu, hprops, hitems⟩ := schemaOkB_parts h
    have H : ∀ k ps, lookupProp k S.properties = some ps →
        ∀ w, applyProp ps (applyProp ps w) = applyProp ps w := by
      intro k ps hl w
      exact applyProp_idem_strong (sizeOf ps) ps le_rfl (propsOkB_lookup hprops hl) w
    show Json.obj (normFields (normFields fields S.properties) S.properties) =
      Json.obj (normFields fields S.properties)
    rw [normFields_idem_of S.properties H fields]
  | str s0 => rfl
  | num n => rfl
  | bool b => rfl
  | null => rfl
  | arr xs => rfl

/-- Witness for C4: a schema whose single enum list DEBUG, TASK is
case-unique, on which a second normalization pass changes nothing. -/
theorem claim_enum_idempotent_witness :
    schemaOkB (Schema.mk [] none
      [("taskType", Schema.mk ["DEBUG", "TASK"] (some "string") [] none)] none) =
      true ∧
    normalizeEnumValues
        (normalizeEnumValues (Json.obj [("taskType", Json.str "debug")])
          (Schema.mk [] none
            [("taskType", Schema.mk ["DEBUG", "TASK"] (some "string") [] none)] none))
        (Schema.mk [] none
          [("taskType", Schema.mk ["DEBUG", "TASK"] (some "string") [] none)] none) =
      normalizeEnumValues (Json.obj [("taskType", Json.str "debug")])
        (Schema.mk [] none
          [("taskType", Schema.mk ["DEBUG", "TASK"] (some "string") [] none)] none) := by
  have hok : schemaOkB (Schema.mk [] none
      [("taskType", Schema.mk ["DEBUG", "TASK"] (some "string") [] none)] none) =
      true := by
    simp +decide [schemaOkB, propsOkB, enumCaseUniqueB, jsUpper, jsUpperL, upperChar,
      letterPairs, Schema.enum, Schema.ty, Schema.properties, Schema.items]
  exact ⟨hok, claim_enum_idempotent (Json.obj [("taskType", Json.str "debug")]) _ hok⟩

/-! ## C5: pipe collapse and case-insensitive matching -/

/-- Uppercasing fixes a character list all of whose characters are fixed. -/
theorem jsUpperL_fixed_of_all {l : List Char} (h : ∀ c ∈ l, upperChar c = c) :
    jsUpperL l = l := by
  induction l with
  | nil => rfl
  | cons a t ih =>
    show upperChar a :: jsUpperL t = a :: t
    rw [h a (List.mem_cons_self a t), ih (fun c hc => h c (List.mem_cons_of_mem a hc))]

/-- A trimmed pipe-piece of an uppercased string is fixed by uppercasing. -/
theorem upper_fixed_of_split {v fv : String}
    (hmem : fv ∈ (splitPipe (jsUpper v)).map jsTrim) : jsUpper fv = fv := by
  rcases List.mem_map.mp hmem with ⟨piece, hpiece, hfv⟩
  subst hfv
  rcases List.mem_map.mp hpiece with ⟨pl, hpl, hmk⟩
  subst hmk
  show String.mk (jsUpperL (jsTrimL pl)) = String.mk (jsTrimL pl)
  have hfix : ∀ c ∈ jsTrimL pl, upperChar c = c := by
    intro c hc
    have hcl : c ∈ jsUpperL v.data := (splitPipeL_mem hpl (jsTrimL_subset pl c hc)).1
    rcases List.mem_map.mp hcl with ⟨d, _, hd⟩
    rw [← hd]
    exact upperChar_idemChar d
  rw [jsUpperL_fixed_of_all hfix]

/-- **C5 counterexample**: with enum options SIMPLE and STANDARD, the value
simple|foo contains a pipe and exactly one of its parts is a valid option
after trim and uppercase, yet normalization leaves the value unchanged rather
than collapsing it to SIMPLE: the source collapses only when at least two
parts are valid (matchCount at least 2). -/
theorem claim_pipe_collapse_counterexample :
    hasPipe (jsUpper (jsTrim "simple|foo")) = true ∧
    (((splitPipe (jsUpper (jsTrim "simple|foo"))).map jsTrim).filter
        (fun p => (["SIMPLE", "STANDARD"] : List String).contains p)).length = 1 ∧
    normalizeString ["SIMPLE", "STANDARD"] "simple|foo" = "simple|foo" ∧
    ¬(normalizeString ["SIMPLE", "STANDARD"] "simple|foo" = "SIMPLE") := by
  decide

/-- **C5** (amended): for a case-unique enum list, a value whose trimmed
uppercased form contains a pipe and has at least two pipe-separated parts that
are valid enum options collapses to the first valid non-empty part; and a
value without a pipe whose trimmed uppercased form matches an enum option
case-insensitively normalizes to the first matching option, before the
common-variations table is consulted. -/
theorem claim_pipe_collapse_and_case_match :
    (∀ (es : List String) (v fv : String),
       enumCaseUniqueB es = true →
       hasPipe (jsUpper (jsTrim v)) = true →
       2 ≤ (((splitPipe (jsUpper (jsTrim v))).map jsTrim).filter
              (fun p => es.contains p)).length →
       ((splitPipe (jsUpper (jsTrim v))).map jsTrim).find?
           (fun p => es.contains p) = some fv →
       ¬(fv = "") →
       normalizeString es v = fv) ∧
    (∀ (es : List String) (v m : String),
       hasPipe (jsUpper (jsTrim v)) = false →
       es.find? (fun e => jsUpper e == jsUpper (jsTrim v)) = some m →
       normalizeString es v = m) := by
  constructor
  · intro es v fv hu hpipe hcount hfind hfv
    have hval : enumValueOf es v = fv := by
      unfold enumValueOf collapsePipes
      rw [hpipe]
      simp only [if_true]
      rw [if_pos hcount, hfind]
      simp only [if_neg hfv]
    have hfvmem : fv ∈ (splitPipe (jsUpper (jsTrim v))).map jsTrim :=
      List.mem_of_find?_eq_some hfind
    have hfvup : jsUpper fv = fv := upper_fixed_of_split hfvmem
    have hfves : fv ∈ es := by
      have := List.find?_some hfind
      simpa [List.contains_iff_exists_mem_beq] using this
    unfold normalizeString
    rw [hval]
    cases hf2 : es.find? (fun e => jsUpper e == fv) with
    | none =>
      exfalso
      have := List.find?_eq_none.mp hf2 fv hfves
      rw [hfvup] at this
      simp at this
    | some m =>
      simp only [hf2]
      have hm : jsUpper m = fv := by simpa using List.find?_some hf2
      exact enumCaseUnique_eq hu (List.mem_of_find?_eq_some hf2) hfves
        (by rw [hm, hfvup])
  · intro es v m hpipe hfind
    have hval : enumValueOf es v = jsUpper (jsTrim v) := by
      unfold enumValueOf
      rw [hpipe]
      simp
    unfold normalizeString
    simp only [hval, hfind]

/-- Witness for C5: the value " simple|standard " with two valid parts
collapses to SIMPLE, and the pipe-free value simple matches SIMPLE
case-insensitively. -/
theorem claim_pipe_collapse_and_case_match_witness :
    normalizeString ["SIMPLE", "STANDARD"] " simple|standard " = "SIMPLE" ∧
    normalizeString ["SIMPLE", "STANDARD"] "simple" = "SIMPLE" :=
  ⟨claim_pipe_collapse_and_case_match.1 ["SIMPLE", "STANDARD"] " simple|standard "
     "SIMPLE" (by decide) (by decide) (by decide) (by decide) (by decide),
   claim_pipe_collapse_and_case_match.2 ["SIMPLE", "STANDARD"] "simple" "SIMPLE"
     (by decide) (by decide)⟩

end Zeroshot
